import Mathlib

/-!
Verification of the settings optimizer (`src/app/services/settings/optimizer.ts`).

The development shallowly embeds the optimizer: the definition tree, the
category cache and dirty ledger, the value reader/writer and the diff
formatter are translated from the TypeScript source.  The host settings
store and the translation facility are external collaborators of the
repository; they are modelled from the spec (sections 4.3 and 6) as a
per-category list of fields accessed through read/write capabilities, and
as a translate-or-echo function.  An explicit event trace records every
accessor interaction so that temporal properties can be stated.
-/

set_option maxHeartbeats 1000000

/-- A raw setting value (`any` in the source: strings and numbers occur). -/
inductive SVal where
  | str (s : String)
  | num (n : Int)
deriving DecidableEq, Repr

/-- enum OptimizationKey -/
inductive OptimizationKey where
  | outputMode
  | videoBitrate
  | audioBitrate
  | quality
  | colorSpace
  | fps
  | encoder
  | keyframeInterval
  | encoderPreset
  | profile
  | tune
  | audioTrackIndex
deriving DecidableEq, Repr

/-- `Object.values(OptimizationKey)` in declaration order. -/
def allOptimizationKeys : List OptimizationKey :=
  [.outputMode, .videoBitrate, .audioBitrate, .quality, .colorSpace, .fps,
   .encoder, .keyframeInterval, .encoderPreset, .profile, .tune, .audioTrackIndex]

/-- enum CategoryName -/
inductive CategoryName where
  | output
  | video
  | advanced
deriving DecidableEq, Repr

/-- The string value of a CategoryName enum member. -/
def CategoryName.str : CategoryName → String
  | .output => "Output"
  | .video => "Video"
  | .advanced => "Advanced"

/-- A target/current snapshot (`OptimizeSettings`): a partial map from key to
value; `none` models an absent property. -/
def OptimizeSettings : Type := OptimizationKey → Option SVal

/-- type DefinitionParam; `dependents` is `none` when the optional property is
absent and `some branches` when present (in the source an empty array is still
truthy, so the two are distinguished). -/
inductive DefinitionParam where
  | mk (key : OptimizationKey) (category : CategoryName)
       (subCategory : String) (setting : String)
       (label : Option String) (lookupValueName : Bool)
       (dependents : Option (List (SVal × List DefinitionParam)))

def DefinitionParam.key : DefinitionParam → OptimizationKey
  | .mk k _ _ _ _ _ _ => k

def DefinitionParam.category : DefinitionParam → CategoryName
  | .mk _ c _ _ _ _ _ => c

def DefinitionParam.subCategory : DefinitionParam → String
  | .mk _ _ sub _ _ _ _ => sub

def DefinitionParam.setting : DefinitionParam → String
  | .mk _ _ _ st _ _ _ => st

def DefinitionParam.label : DefinitionParam → Option String
  | .mk _ _ _ _ l _ _ => l

def DefinitionParam.lookupValueName : DefinitionParam → Bool
  | .mk _ _ _ _ _ b _ => b

def DefinitionParam.dependents :
    DefinitionParam → Option (List (SVal × List DefinitionParam))
  | .mk _ _ _ _ _ _ d => d

/-- The nodes of the shipped `definitionParams` tree, transcribed from the
source (children first so that parents can refer to them). -/
def dVideoBitrate : DefinitionParam :=
  .mk .videoBitrate .output ("Streaming") ("bitrate")
    (some ("settings.videoBitrate")) false none

def dAudioBitrate : DefinitionParam :=
  .mk .audioBitrate .output ("Audio - Track 1") ("Track1Bitrate")
    (some ("settings.audioBitrate")) false none

def dEncoderPreset : DefinitionParam :=
  .mk .encoderPreset .output ("Streaming") ("preset")
    (some ("settings.encoderPreset")) true none

def dTune : DefinitionParam :=
  .mk .tune .output ("Streaming") ("tune") none true none

def dEncoder : DefinitionParam :=
  .mk .encoder .output ("Streaming") ("Encoder") none true
    (some [(.str ("obs_x264"), [dEncoderPreset, dTune])])

def dKeyframeInterval : DefinitionParam :=
  .mk .keyframeInterval .output ("Streaming") ("keyint_sec")
    (some ("settings.keyframeInterval")) false none

def dProfile : DefinitionParam :=
  .mk .profile .output ("Streaming") ("profile") none true none

def dAudioTrackIndex : DefinitionParam :=
  .mk .audioTrackIndex .output ("Streaming") ("TrackIndex") none false none

def dOutputMode : DefinitionParam :=
  .mk .outputMode .output ("Untitled") ("Mode") none true
    (some [(.str ("Advanced"),
      [dVideoBitrate, dAudioBitrate, dEncoder, dKeyframeInterval,
       dProfile, dAudioTrackIndex])])

def dQuality : DefinitionParam :=
  .mk .quality .video ("Untitled") ("Output")
    (some ("streaming.resolution")) true none

def dColorSpace : DefinitionParam :=
  .mk .colorSpace .advanced ("Video") ("ColorSpace") none false none

def dFps : DefinitionParam :=
  .mk .fps .video ("Untitled") ("FPSCommon") (some ("streaming.FPS")) false none

/-- The shipped `definitionParams` tree, transcribed from the source. -/
def definitionParams : List DefinitionParam :=
  [dOutputMode, dQuality, dColorSpace, dFps]

mutual
/-- function* iterateDefinitions: flatten the tree depth-first, parent first,
every branch's children regardless of the active branch. -/
def iterateDefinitions : List DefinitionParam → List DefinitionParam
  | [] => []
  | i :: rest => iterItem i ++ iterateDefinitions rest

def iterItem : DefinitionParam → List DefinitionParam
  | .mk k c sub st l b deps =>
      .mk k c sub st l b deps ::
        (match deps with
         | none => []
         | some ds => iterDeps ds)

def iterDeps : List (SVal × List DefinitionParam) → List DefinitionParam
  | [] => []
  | (_, ps) :: rest => iterateDefinitions ps ++ iterDeps rest
end

mutual
/-- function isDependValues: does the target snapshot name any key anywhere in
this list of definitions (recursively through every branch)? -/
def isDependValues (values : OptimizeSettings) : List DefinitionParam → Bool
  | [] => false
  | i :: rest => isDependItem values i || isDependValues values rest

def isDependItem (values : OptimizeSettings) : DefinitionParam → Bool
  | .mk k _ _ _ _ _ deps =>
      (values k).isSome ||
        (match deps with
         | none => false
         | some ds => isDependDeps values ds)

def isDependDeps (values : OptimizeSettings) :
    List (SVal × List DefinitionParam) → Bool
  | [] => false
  | (_, ps) :: rest => isDependValues values ps || isDependDeps values rest
end

/-- function validateDefinitionParams, modelled as returning the list of
missing keys that the source logs (the source only reports, never throws). -/
def validateDefinitionParams (params : List DefinitionParam) :
    List OptimizationKey :=
  let actual := (iterateDefinitions params).map DefinitionParam.key
  allOptimizationKeys.filter (fun k => ¬ actual.contains k)

/-- A field inside a category's form data: located by (subCategory, setting),
exposing a mutable value.  Modelled from the spec: the accessor's
`findField` locates a field by sub-category and setting name. -/
structure SettingField where
  subCategory : String
  setting : String
  value : SVal
deriving DecidableEq, Repr

/-- One category's form data (`ISettingsSubCategory[]`), modelled from the
spec as the list of its fields. -/
def FormData : Type := List SettingField

/-- Modelled from the spec: the host settings store holds per-category form
data, read and written whole through the accessor capability. -/
structure Store where
  output : FormData
  video : FormData
  advanced : FormData

def Store.get (st : Store) : CategoryName → FormData
  | .output => st.output
  | .video => st.video
  | .advanced => st.advanced

def Store.set (st : Store) : CategoryName → FormData → Store
  | .output, fd => { st with output := fd }
  | .video, fd => { st with video := fd }
  | .advanced, fd => { st with advanced := fd }

/-- Modelled from the spec: `findField` returns the first field matching
(subCategory, setting). -/
def findSetting (fd : FormData) (sub st : String) : Option SettingField :=
  fd.find? (fun f => f.subCategory == sub && f.setting == st)

/-- Modelled from the spec: `findFieldValue` is the convenience value read. -/
def findSettingValue (fd : FormData) (sub st : String) : Option SVal :=
  (findSetting fd sub st).map SettingField.value

/-- In-place mutation of a field's value (`setting.value = value` through the
reference returned by `findField`): the first matching field is updated. -/
def updateField (fd : FormData) (sub st : String) (v : SVal) : FormData :=
  match fd with
  | [] => []
  | f :: rest =>
      if f.subCategory == sub && f.setting == st then
        { f with value := v } :: rest
      else
        f :: updateField rest sub st v

/-- Accessor interaction events: store reads/writes plus (for stating the
temporal claims) cached-field mutations and cache discards. -/
inductive Ev where
  | getData (c : CategoryName)
  | setData (c : CategoryName)
  | mutateField (c : CategoryName) (sub st : String) (v : SVal)
  | forget (c : CategoryName)
deriving DecidableEq, Repr

/-- The optimizer's state: the external store, the category cache (a JS Map,
insertion ordered), the dirty set (a JS Set, insertion ordered) and the
event trace. -/
structure OptState where
  store : Store
  cache : List (CategoryName × FormData)
  modified : List CategoryName
  events : List Ev

def cacheGet (cache : List (CategoryName × FormData)) (c : CategoryName) :
    Option FormData :=
  (cache.find? (fun p => p.1 == c)).map Prod.snd

/-- `Map.set`: replace in place if the key exists, else append. -/
def cacheSet (cache : List (CategoryName × FormData)) (c : CategoryName)
    (fd : FormData) : List (CategoryName × FormData) :=
  match cache with
  | [] => [(c, fd)]
  | p :: rest =>
      if p.1 == c then (c, fd) :: rest else p :: cacheSet rest c fd

/-- `Map.delete`. -/
def cacheDel (cache : List (CategoryName × FormData)) (c : CategoryName) :
    List (CategoryName × FormData) :=
  cache.filter (fun p => p.1 ≠ c)

/-- `Set.add`: append if not already present. -/
def modAdd (m : List CategoryName) (c : CategoryName) : List CategoryName :=
  if c ∈ m then m else m ++ [c]

/-- `Set.delete`. -/
def modDel (m : List CategoryName) (c : CategoryName) : List CategoryName :=
  m.filter (fun c2 => c2 ≠ c)

/-- Optimizer.getCategory (the `reload` parameter is never passed `true` in
the source, so it is omitted): read-through cache of the accessor's
`getSettingsFormData`. -/
def getCategory (s : OptState) (c : CategoryName) : FormData × OptState :=
  match cacheGet s.cache c with
  | some fd => (fd, s)
  | none =>
      let fd := s.store.get c
      (fd, { s with cache := cacheSet s.cache c fd,
                    events := s.events ++ [.getData c] })

/-- Optimizer.updateCategory: if cached, send the cached form data to the
store via the accessor's write capability. -/
def updateCategory (s : OptState) (c : CategoryName) : OptState :=
  match cacheGet s.cache c with
  | some fd =>
      { s with store := s.store.set c fd, events := s.events ++ [.setData c] }
  | none => s

/-- Optimizer.writeBackCategory: flush one category if dirty. -/
def writeBackCategory (s : OptState) (c : CategoryName) : OptState :=
  if c ∈ s.modified then
    let s1 := updateCategory s c
    { s1 with modified := modDel s1.modified c }
  else s

/-- Optimizer.writeBackAllCategories: flush every dirty category (iterating
the dirty set), then clear the dirty set. -/
def writeBackAllCategories (s : OptState) : OptState :=
  let s1 := s.modified.foldl updateCategory s
  { s1 with modified := [] }

/-- Optimizer.forgetCategoryCache: drop a cache entry and its dirty mark
without flushing. -/
def forgetCategoryCache (s : OptState) (c : CategoryName) : OptState :=
  if (cacheGet s.cache c).isSome then
    { s with cache := cacheDel s.cache c,
             modified := modDel s.modified c,
             events := s.events ++ [.forget c] }
  else s

/-- Optimizer.findValue. -/
def findValue (s : OptState) (item : DefinitionParam) :
    Option SVal × OptState :=
  (findSettingValue (getCategory s item.category).1
     item.subCategory item.setting,
   (getCategory s item.category).2)

/-- The categories of the direct children of every branch (the loops at the
start and end of Optimizer.setValue range over exactly these). -/
def depCats (deps : List (SVal × List DefinitionParam)) : List CategoryName :=
  deps.flatMap (fun d => d.2.map DefinitionParam.category)

def flushList (s : OptState) (cats : List CategoryName) : OptState :=
  cats.foldl writeBackCategory s

def forgetList (s : OptState) (cats : List CategoryName) : OptState :=
  cats.foldl forgetCategoryCache s

/-- Optimizer.setValue: the atomic write primitive.  Look the field up in the
cached form data; no-op when absent or when the stored value already equals
`value`; otherwise pre-flush the branch children's categories, mutate the
cached field, mark the category dirty, and (for a branching node) flush the
node's own category immediately and then discard the children's cache
entries. -/
def setValue (s : OptState) (item : DefinitionParam) (value : SVal) :
    OptState :=
  match findSetting (getCategory s item.category).1
          item.subCategory item.setting with
  | some fld =>
      if fld.value ≠ value then
        let s2 := match item.dependents with
                  | some deps =>
                      flushList (getCategory s item.category).2 (depCats deps)
                  | none => (getCategory s item.category).2
        let s3 := { s2 with
          cache := cacheSet s2.cache item.category
            (updateField (getCategory s item.category).1
              item.subCategory item.setting value),
          modified := modAdd s2.modified item.category,
          events := s2.events ++
            [.mutateField item.category item.subCategory item.setting value] }
        match item.dependents with
        | some deps => forgetList (writeBackCategory s3 item.category)
                         (depCats deps)
        | none => s3
      else (getCategory s item.category).2
  | none => (getCategory s item.category).2

/-- setValue applied to the result of an earlier read; in the source a read
that found no field leads to a `setValue(item, undefined)` call that again
finds no field and does nothing beyond the cache lookup. -/
def setValueRestore (s : OptState) (item : DefinitionParam) :
    Option SVal → OptState
  | some v => setValue s item v
  | none => (getCategory s item.category).2

mutual
/-- Optimizer.setValues: the value writer, recursing over the definition
list with the same target snapshot. -/
def setValues (s : OptState) (values : OptimizeSettings) :
    List DefinitionParam → OptState
  | [] => s
  | item :: rest => setValues (setValuesItem s values item) values rest

/-- One item of Optimizer.setValues: a branching node reads its current value
as fallback, descends into every branch the target touches (setting the node
to the branch's selector first), then writes the target's own value if named,
else the fallback; a leaf is written only when named. -/
def setValuesItem (s : OptState) (values : OptimizeSettings) :
    DefinitionParam → OptState
  | .mk k c sub st l b none =>
      match values k with
      | some v => setValue s (.mk k c sub st l b none) v
      | none => s
  | .mk k c sub st l b (some deps) =>
      let item := DefinitionParam.mk k c sub st l b (some deps)
      let p := findValue s item
      let s2 := setValuesDeps p.2 values item deps
      match values k with
      | some v => setValue s2 item v
      | none => setValueRestore s2 item p.1
def setValuesDeps (s : OptState) (values : OptimizeSettings)
    (item : DefinitionParam) :
    List (SVal × List DefinitionParam) → OptState
  | [] => s
  | (dv, ps) :: rest =>
      let s1 := if isDependValues values ps then
                  setValues (setValue s item dv) values ps
                else s
      setValuesDeps s1 values item rest
end

mutual
/-- Optimizer.getValues: the value reader; yields one (key, value) pair per
node, pivoting a branching node into every branch and restoring it once all
branches are exhausted. -/
def getValuesList (s : OptState) :
    List DefinitionParam → List (OptimizationKey × Option SVal) × OptState
  | [] => ([], s)
  | item :: rest =>
      let p1 := getValuesItem s item
      let p2 := getValuesList p1.2 rest
      (p1.1 ++ p2.1, p2.2)

def getValuesItem (s : OptState) :
    DefinitionParam → List (OptimizationKey × Option SVal) × OptState
  | .mk k c sub st l b none =>
      let p := findValue s (.mk k c sub st l b none)
      ([(k, p.1)], p.2)
  | .mk k c sub st l b (some deps) =>
      let item := DefinitionParam.mk k c sub st l b (some deps)
      let p := findValue s item
      let p2 := getValuesDeps p.2 item deps
      let s3 := setValueRestore p2.2 item p.1
      ((k, p.1) :: p2.1, s3)

def getValuesDeps (s : OptState) (item : DefinitionParam) :
    List (SVal × List DefinitionParam) →
      List (OptimizationKey × Option SVal) × OptState
  | [] => ([], s)
  | (dv, ps) :: rest =>
      let s1 := setValue s item dv
      let p1 := getValuesList s1 ps
      let p2 := getValuesDeps p1.2 item rest
      (p1.1 ++ p2.1, p2.2)
end

/-- `Object.assign({}, ...pairs)`: later pairs win.  (A pair carrying `none`
came from a missing field; assigning it leaves the key unresolved, which this
model collapses with the key being absent.) -/
def assignPairs (ps : List (OptimizationKey × Option SVal)) :
    OptimizeSettings :=
  fun k => (ps.reverse.find? (fun p => p.1 == k)).bind Prod.snd

/-- Optimizer.getCurrentSettings. -/
def getCurrentSettings (s : OptState) (defs : List DefinitionParam) :
    OptimizeSettings × OptState :=
  let p := getValuesList s defs
  (assignPairs p.1, p.2)

/-- Optimizer.optimize: write the target snapshot, then flush everything. -/
def optimize (s : OptState) (values : OptimizeSettings)
    (defs : List DefinitionParam) : OptState :=
  writeBackAllCategories (setValues s values defs)

/-- i18nPath: join path parts with dots, bracket-quoting parts containing
whitespace. -/
def i18nPath (top : String) (args : List String) : String :=
  top ++ String.join (args.map (fun s =>
    if s.toList.any Char.isWhitespace then
      "[\x27" ++ s ++ "\x27]"
    else
      "." ++ s))

/-- class OptKeyProperty (constructor): label falls back to the i18n path
built from category/subCategory/setting when no explicit label is given. -/
structure OptKeyProperty where
  key : OptimizationKey
  category : CategoryName
  subCategory : String
  setting : String
  labelPath : String
  lookupValueName : Bool

def OptKeyProperty.ofDef (d : DefinitionParam) : OptKeyProperty :=
  { key := d.key
    category := d.category
    subCategory := d.subCategory
    setting := d.setting
    labelPath := match d.label with
      | some l => l
      | none => i18nPath ("settings")
          [d.category.str, d.subCategory, d.setting, "name"]
    lookupValueName := d.lookupValueName }

/-- OptKeyProperty.label getter: translate the label path; when the
translation facility echoes the path (not found), report and fall back to the
raw setting name.  `tr` is the translation capability. -/
def OptKeyProperty.labelOf (tr : String → String) (o : OptKeyProperty) :
    String :=
  if tr o.labelPath ≠ o.labelPath then tr o.labelPath else o.setting

/-- Rendering of a raw value into the i18n path (string interpolation in the
source). -/
def SVal.render : SVal → String
  | .str s => s
  | .num n => toString n

/-- The i18n path under which a raw display value of a field is looked up. -/
def OptKeyProperty.vpath (o : OptKeyProperty) (v : SVal) : String :=
  i18nPath ("settings") [o.category.str, o.subCategory, o.setting, v.render]

/-- OptKeyProperty.value: `none` input (undefined) is reported and yields no
result; with lookupValueName, a found translation replaces the raw value,
otherwise the raw value is returned unchanged. -/
def OptKeyProperty.valueOf (tr : String → String) (o : OptKeyProperty) :
    Option SVal → Option SVal
  | none => none
  | some v =>
      if o.lookupValueName then
        if o.vpath v ≠ tr (o.vpath v) then some (.str (tr (o.vpath v)))
        else some v
      else some v

/-- One row of the diff report; `newValue = none` models the absent field. -/
structure OptimizeItem where
  key : OptimizationKey
  name : String
  currentValue : Option SVal
  newValue : Option SVal
deriving DecidableEq, Repr

/-- The row Optimizer.optimizeInfo builds for one definition. -/
def mkInfoItem (tr : String → String) (current optimized : OptimizeSettings)
    (d : DefinitionParam) : OptimizeItem :=
  if (optimized (OptKeyProperty.ofDef d).key).isSome then
    { key := (OptKeyProperty.ofDef d).key
      name := (OptKeyProperty.ofDef d).labelOf tr
      currentValue := (OptKeyProperty.ofDef d).valueOf tr
        (current (OptKeyProperty.ofDef d).key)
      newValue := (OptKeyProperty.ofDef d).valueOf tr
        (optimized (OptKeyProperty.ofDef d).key) }
  else
    { key := (OptKeyProperty.ofDef d).key
      name := (OptKeyProperty.ofDef d).labelOf tr
      currentValue := (OptKeyProperty.ofDef d).valueOf tr
        (current (OptKeyProperty.ofDef d).key)
      newValue := none }

/-- Append to a per-category list in a Map (insertion ordered). -/
def mapAppend (acc : List (CategoryName × List OptimizeItem))
    (c : CategoryName) (item : OptimizeItem) :
    List (CategoryName × List OptimizeItem) :=
  match acc with
  | [] => [(c, [item])]
  | p :: rest =>
      if p.1 == c then (p.1, p.2 ++ [item]) :: rest
      else p :: mapAppend rest c item

/-- Optimizer.optimizeInfo: one row per flattened definition, grouped per
category in first-encounter order. -/
def optimizeInfo (tr : String → String) (current optimized : OptimizeSettings)
    (defs : List DefinitionParam) :
    List (CategoryName × List OptimizeItem) :=
  (iterateDefinitions defs).foldl
    (fun acc d => mapAppend acc d.category (mkInfoItem tr current optimized d))
    []

/-- The expected key layout of the shipped diff report: one entry per key,
grouped per category in first-encounter order, keys in flattened
depth-first traversal order. -/
def expectedInfoKeys : List (CategoryName × List OptimizationKey) :=
  [(.output, [.outputMode, .videoBitrate, .audioBitrate, .encoder,
              .encoderPreset, .tune, .keyframeInterval, .profile,
              .audioTrackIndex]),
   (.video, [.quality, .fps]),
   (.advanced, [.colorSpace])]

/-- The state right after `setting.value = value` and the dirty-mark in
setValue: `s0` is the state after the optional pre-flush, `fd` the form data
the field was found in. -/
def mutBase (s0 : OptState) (item : DefinitionParam) (v : SVal)
    (fd : FormData) : OptState :=
  { s0 with
    cache := cacheSet s0.cache item.category
      (updateField fd item.subCategory item.setting v),
    modified := modAdd s0.modified item.category,
    events := s0.events ++
      [.mutateField item.category item.subCategory item.setting v] }

/-- A concrete state for exercising C2: the Output category is cached and
dirty, and the outputMode field currently reads a value other than the
Advanced selector. -/
def c2state : OptState :=
  { store := ⟨[⟨"Untitled", "Mode", .str ("Simple")⟩], [], []⟩,
    cache := [(.output, [⟨"Untitled", "Mode", .str ("Simple")⟩])],
    modified := [.output],
    events := [] }

def c2deps : List (SVal × List DefinitionParam) :=
  [(.str ("Advanced"),
    [dVideoBitrate, dAudioBitrate, dEncoder, dKeyframeInterval,
     dProfile, dAudioTrackIndex])]

/-- The dirty-set/cache coherence invariant: every dirty category has a
cache entry. -/
def DirtySub (s : OptState) : Prop :=
  ∀ c ∈ s.modified, (cacheGet s.cache c).isSome = true

/-- A field address: category, sub-category, setting name. -/
def Addr : Type := CategoryName × String × String

instance : DecidableEq Addr := by
  unfold Addr
  infer_instance

def DefinitionParam.addr (d : DefinitionParam) : Addr :=
  (d.category, d.subCategory, d.setting)

/-- The value of the field at address `a` in the durable store. -/
def fieldValue (st : Store) (a : Addr) : Option SVal :=
  findSettingValue (st.get a.1) a.2.1 a.2.2

/-- The optimizer's current belief about the field at address `a`: the cache
entry (when present) reads `v`, and the durable store also reads `v` unless
the entry's category is dirty. -/
def Settled (s : OptState) (a : Addr) (v : Option SVal) : Prop :=
  match cacheGet s.cache a.1 with
  | some fd => findSettingValue fd a.2.1 a.2.2 = v ∧
      (a.1 ∈ s.modified ∨ fieldValue s.store a = v)
  | none => fieldValue s.store a = v

/-- A non-dirty cache entry agrees with the store. -/
def CacheConsistent (s : OptState) : Prop :=
  ∀ c fd, cacheGet s.cache c = some fd → c ∉ s.modified → fd = s.store.get c

mutual
/-- The addresses the value writer may write for a given target snapshot:
the address of every branching node it reaches, the addresses inside every
branch the target touches, and every named leaf. -/
def writtenAddrs (values : OptimizeSettings) : List DefinitionParam → List Addr
  | [] => []
  | i :: rest => writtenItem values i ++ writtenAddrs values rest

def writtenItem (values : OptimizeSettings) : DefinitionParam → List Addr
  | .mk k c sub st l b none =>
      if (values k).isSome then [(c, sub, st)] else []
  | .mk k c sub st l b (some deps) =>
      (c, sub, st) :: writtenDeps values deps

def writtenDeps (values : OptimizeSettings) :
    List (SVal × List DefinitionParam) → List Addr
  | [] => []
  | (_, ps) :: rest =>
      (if isDependValues values ps then writtenAddrs values ps else []) ++
        writtenDeps values rest
end

/-- The unique definition node carrying each key in the shipped tree. -/
def keyNode : OptimizationKey → DefinitionParam
  | .outputMode => dOutputMode
  | .videoBitrate => dVideoBitrate
  | .audioBitrate => dAudioBitrate
  | .quality => dQuality
  | .colorSpace => dColorSpace
  | .fps => dFps
  | .encoder => dEncoder
  | .keyframeInterval => dKeyframeInterval
  | .encoderPreset => dEncoderPreset
  | .profile => dProfile
  | .tune => dTune
  | .audioTrackIndex => dAudioTrackIndex

/-- A store in which all twelve fields exist, used to instantiate the
round-trip and idempotence theorems. -/
def fullStore : Store :=
  { output :=
      [⟨"Untitled", "Mode", .str ("Simple")⟩,
       ⟨"Streaming", "bitrate", .num 1000⟩,
       ⟨"Audio - Track 1", "Track1Bitrate", .str ("192")⟩,
       ⟨"Streaming", "Encoder", .str ("enc0")⟩,
       ⟨"Streaming", "preset", .str ("fast")⟩,
       ⟨"Streaming", "tune", .str ("zl")⟩,
       ⟨"Streaming", "keyint_sec", .num 2⟩,
       ⟨"Streaming", "profile", .str ("high")⟩,
       ⟨"Streaming", "TrackIndex", .str ("1")⟩],
    video :=
      [⟨"Untitled", "Output", .str ("720p")⟩,
       ⟨"Untitled", "FPSCommon", .str ("30")⟩],
    advanced := [⟨"Video", "ColorSpace", .str ("709")⟩] }

def cleanFullState : OptState := ⟨fullStore, [], [], []⟩

/-- A two-branch branching node (the generic shape setValues handles) used
to exercise branch isolation. -/
def c1LeafA : DefinitionParam :=
  .mk .videoBitrate .output ("SC") ("FA") none false none

def c1LeafB : DefinitionParam :=
  .mk .quality .video ("SC") ("FB") none false none

def c1Item : DefinitionParam :=
  .mk .outputMode .output ("SC") ("Root") none false
    (some [(.str ("A"), [c1LeafA]), (.str ("B"), [c1LeafB])])

/-- Selects branch B at the root, yet also names a key that lives under the
non-selected branch A. -/
def c1target : OptimizeSettings := fun k =>
  match k with
  | .outputMode => some (.str ("B"))
  | .videoBitrate => some (.str ("x"))
  | _ => none

def c1state : OptState :=
  ⟨⟨[⟨"SC", "Root", .str ("B0")⟩, ⟨"SC", "FA", .str ("old")⟩],
    [⟨"SC", "FB", .str ("fb")⟩], []⟩, [], [], []⟩

def omBranch : List (SVal × List DefinitionParam) :=
  [(.str ("Advanced"),
    [dVideoBitrate, dAudioBitrate, dEncoder, dKeyframeInterval,
     dProfile, dAudioTrackIndex])]

def c7target : OptimizeSettings := fun k =>
  match k with
  | .outputMode => some (.str ("Advanced"))
  | .videoBitrate => some (.num 2500)
  | _ => none

theorem mem_allOptimizationKeys (k : OptimizationKey) :
    k ∈ allOptimizationKeys := by
  cases k <;> simp [allOptimizationKeys]

/-- C8: validateDefinitionParams reports (without throwing) exactly the
enumeration keys not reachable by flattening; in the shipped tree every key
appears exactly once, so the load-time validation reports no missing key. -/
theorem claim_C8_validate :
    (∀ (params : List DefinitionParam) (k : OptimizationKey),
        k ∈ validateDefinitionParams params ↔
          k ∉ (iterateDefinitions params).map DefinitionParam.key) ∧
    (∀ k : OptimizationKey,
        ((iterateDefinitions definitionParams).map DefinitionParam.key).count k
          = 1) ∧
    validateDefinitionParams definitionParams = [] := by
  refine ⟨?_, ?_, ?_⟩
  · intro params k
    simp [validateDefinitionParams, List.mem_filter, mem_allOptimizationKeys]
  · intro k
    cases k <;> decide
  · decide

theorem ofDef_setting (d : DefinitionParam) :
    (OptKeyProperty.ofDef d).setting = d.setting := rfl

theorem ofDef_lookupValueName (d : DefinitionParam) :
    (OptKeyProperty.ofDef d).lookupValueName = d.lookupValueName := rfl

/-- C9: display names resolve through the translation capability and fall
back to the raw setting name when the translation echoes; display values of a
lookupValueName node use the translation keyed by
(category, subCategory, setting, raw) when found, else the raw value
unchanged; an undefined raw value yields no result. -/
theorem claim_C9_display (tr : String → String) (d : DefinitionParam)
    (v : SVal) :
    (tr (OptKeyProperty.ofDef d).labelPath ≠ (OptKeyProperty.ofDef d).labelPath →
      (OptKeyProperty.ofDef d).labelOf tr =
        tr (OptKeyProperty.ofDef d).labelPath) ∧
    (tr (OptKeyProperty.ofDef d).labelPath = (OptKeyProperty.ofDef d).labelPath →
      (OptKeyProperty.ofDef d).labelOf tr = d.setting) ∧
    ((OptKeyProperty.ofDef d).valueOf tr none = none) ∧
    (d.lookupValueName = true →
      (OptKeyProperty.ofDef d).vpath v ≠ tr ((OptKeyProperty.ofDef d).vpath v) →
      (OptKeyProperty.ofDef d).valueOf tr (some v) =
        some (.str (tr ((OptKeyProperty.ofDef d).vpath v)))) ∧
    (d.lookupValueName = true →
      (OptKeyProperty.ofDef d).vpath v = tr ((OptKeyProperty.ofDef d).vpath v) →
      (OptKeyProperty.ofDef d).valueOf tr (some v) = some v) ∧
    (d.lookupValueName = false →
      (OptKeyProperty.ofDef d).valueOf tr (some v) = some v) := by
  refine ⟨?_, ?_, rfl, ?_, ?_, ?_⟩
  · intro h
    unfold OptKeyProperty.labelOf
    rw [if_pos h]
  · intro h
    unfold OptKeyProperty.labelOf
    rw [if_neg (not_not_intro h), ofDef_setting]
  · intro hl h
    simp only [OptKeyProperty.valueOf, ofDef_lookupValueName, hl]
    rw [if_pos trivial, if_pos h]
  · intro hl h
    simp only [OptKeyProperty.valueOf, ofDef_lookupValueName, hl]
    rw [if_pos trivial, if_neg (not_not_intro h)]
  · intro hl
    simp only [OptKeyProperty.valueOf, ofDef_lookupValueName, hl]
    rw [if_neg (by simp)]

theorem claim_C9_display_witness :
    ((fun _ => ("x")) ((OptKeyProperty.ofDef dTune).labelPath) ≠
        (OptKeyProperty.ofDef dTune).labelPath ∧
      (OptKeyProperty.ofDef dTune).labelOf (fun _ => ("x")) = ("x")) ∧
    ((OptKeyProperty.ofDef dTune).labelOf id = dTune.setting ∧
      (OptKeyProperty.ofDef dTune).valueOf id (some (.str ("v"))) =
        some (.str ("v"))) := by
  constructor
  · constructor
    · decide
    · exact (claim_C9_display (fun _ => ("x")) dTune (.str ("v"))).1
        (by decide)
  · constructor
    · exact (claim_C9_display id dTune (.str ("v"))).2.1 rfl
    · exact (claim_C9_display id dTune (.str ("v"))).2.2.2.2.1 rfl rfl

theorem ofDef_key (d : DefinitionParam) :
    (OptKeyProperty.ofDef d).key = d.key := rfl

theorem mkInfoItem_key (tr : String → String)
    (current optimized : OptimizeSettings) (d : DefinitionParam) :
    (mkInfoItem tr current optimized d).key = d.key := by
  unfold mkInfoItem
  split <;> rfl

theorem valueOf_some_isSome (tr : String → String) (o : OptKeyProperty)
    (v : SVal) : ((o.valueOf tr (some v))).isSome = true := by
  simp only [OptKeyProperty.valueOf]
  split
  · split <;> rfl
  · rfl

theorem mkInfoItem_newValue (tr : String → String)
    (current optimized : OptimizeSettings) (d : DefinitionParam) :
    (mkInfoItem tr current optimized d).newValue.isSome
      = (optimized d.key).isSome := by
  unfold mkInfoItem
  split
  · rename_i h
    rw [ofDef_key] at h
    rcases ho : optimized d.key with _ | v
    · rw [ho] at h
      simp at h
    · simp only [ofDef_key, ho]
      exact valueOf_some_isSome tr (OptKeyProperty.ofDef d) v
  · rename_i h
    rw [ofDef_key] at h
    simp at h
    simp only [ofDef_key, h]

/-- C6: optimizeInfo returns exactly one item per enumeration key, grouped
into per-category lists in flattened depth-first order with categories in
first-encounter order; an item carries a newValue exactly when the target
explicitly contains its key. -/
theorem claim_C6_optimizeInfo (tr : String → String)
    (current optimized : OptimizeSettings) :
    ((optimizeInfo tr current optimized definitionParams).map
        (fun p => (p.1, p.2.map OptimizeItem.key)) = expectedInfoKeys) ∧
    (∀ p ∈ optimizeInfo tr current optimized definitionParams,
        ∀ it ∈ p.2, it.newValue.isSome = (optimized it.key).isSome) := by
  have hr : optimizeInfo tr current optimized definitionParams =
      [(.output,
        [mkInfoItem tr current optimized dOutputMode,
         mkInfoItem tr current optimized dVideoBitrate,
         mkInfoItem tr current optimized dAudioBitrate,
         mkInfoItem tr current optimized dEncoder,
         mkInfoItem tr current optimized dEncoderPreset,
         mkInfoItem tr current optimized dTune,
         mkInfoItem tr current optimized dKeyframeInterval,
         mkInfoItem tr current optimized dProfile,
         mkInfoItem tr current optimized dAudioTrackIndex]),
       (.video,
        [mkInfoItem tr current optimized dQuality,
         mkInfoItem tr current optimized dFps]),
       (.advanced, [mkInfoItem tr current optimized dColorSpace])] := rfl
  constructor
  · rw [hr]
    simp only [List.map_cons, List.map_nil, mkInfoItem_key]
    rfl
  · rw [hr]
    intro p hp it hit
    simp only [List.mem_cons, List.not_mem_nil, or_false] at hp
    rcases hp with h | h | h
    all_goals subst h
    all_goals simp only [List.mem_cons, List.not_mem_nil, or_false] at hit
    · rcases hit with h | h | h | h | h | h | h | h | h <;> subst h <;>
        rw [mkInfoItem_newValue, mkInfoItem_key]
    · rcases hit with h | h <;> subst h <;>
        rw [mkInfoItem_newValue, mkInfoItem_key]
    · subst hit
      rw [mkInfoItem_newValue, mkInfoItem_key]

theorem claim_C8_validate_witness :
    OptimizationKey.fps ∈ validateDefinitionParams [] :=
  (claim_C8_validate.1 [] .fps).mpr (by decide)

theorem claim_C6_optimizeInfo_witness :
    ((optimizeInfo id (fun _ => none) (fun _ => none) definitionParams).map
        (fun p => (p.1, p.2.map OptimizeItem.key)) = expectedInfoKeys) ∧
    ((mkInfoItem id (fun _ => none) (fun _ => none) dOutputMode).newValue.isSome
      = ((fun _ => none : OptimizeSettings)
          (mkInfoItem id (fun _ => none) (fun _ => none) dOutputMode).key).isSome) :=
  ⟨(claim_C6_optimizeInfo id _ _).1,
   (claim_C6_optimizeInfo id _ _).2 _ (List.mem_cons_self _ _) _
     (List.mem_cons_self _ _)⟩

theorem cacheGet_set_self (cache : List (CategoryName × FormData))
    (c : CategoryName) (fd : FormData) :
    cacheGet (cacheSet cache c fd) c = some fd := by
  induction cache with
  | nil => simp [cacheGet, cacheSet]
  | cons p rest ih =>
      by_cases h : p.1 = c
      · simp [cacheGet, cacheSet, h]
      · simp only [cacheSet]
        rw [if_neg (by simpa using h)]
        simp only [cacheGet, List.find?]
        rw [show (p.1 == c) = false by simpa using h]
        exact ih

theorem cacheGet_set_ne (cache : List (CategoryName × FormData))
    (c c' : CategoryName) (fd : FormData) (h : c' ≠ c) :
    cacheGet (cacheSet cache c fd) c' = cacheGet cache c' := by
  induction cache with
  | nil =>
      simp only [cacheSet, cacheGet, List.find?]
      rw [show (c == c') = false by
        rw [beq_eq_false_iff_ne]; exact Ne.symm h]
  | cons p rest ih =>
      by_cases hp : p.1 = c
      · simp only [cacheSet]
        rw [if_pos (by simpa using hp)]
        simp only [cacheGet, List.find?]
        rw [show (c == c') = false by
              rw [beq_eq_false_iff_ne]; exact Ne.symm h,
            show (p.1 == c') = false by
              rw [beq_eq_false_iff_ne, hp]; exact Ne.symm h]
      · simp only [cacheSet]
        rw [if_neg (by simpa using hp)]
        simp only [cacheGet, List.find?] at ih ⊢
        cases hq : (p.1 == c') with
        | true => rfl
        | false => exact ih

theorem cacheGet_set_isSome (cache : List (CategoryName × FormData))
    (c c' : CategoryName) (fd : FormData)
    (h : (cacheGet cache c').isSome = true) :
    (cacheGet (cacheSet cache c fd) c').isSome = true := by
  by_cases hc : c' = c
  · subst hc
    rw [cacheGet_set_self]
    rfl
  · rw [cacheGet_set_ne cache c c' fd hc]
    exact h

theorem cacheGet_del_self (cache : List (CategoryName × FormData))
    (c : CategoryName) : cacheGet (cacheDel cache c) c = none := by
  induction cache with
  | nil => rfl
  | cons p rest ih =>
      by_cases h : p.1 = c
      · simp only [cacheDel, List.filter] at ih ⊢
        rw [show (decide ¬ p.1 = c) = false by simp [h]]
        exact ih
      · simp only [cacheDel, List.filter] at ih ⊢
        rw [show (decide ¬ p.1 = c) = true by simp [h]]
        simp only [cacheGet, List.find?]
        rw [show (p.1 == c) = false by
          rw [beq_eq_false_iff_ne]; exact h]
        exact ih

theorem cacheGet_del_ne (cache : List (CategoryName × FormData))
    (c c' : CategoryName) (h : c' ≠ c) :
    cacheGet (cacheDel cache c) c' = cacheGet cache c' := by
  induction cache with
  | nil => rfl
  | cons p rest ih =>
      by_cases hp : p.1 = c
      · have : (p.1 == c') = false := by
          rw [beq_eq_false_iff_ne, hp]; exact Ne.symm h
        simp only [cacheDel, List.filter] at ih ⊢
        rw [show (decide ¬ p.1 = c) = false by simp [hp]]
        simp only [cacheGet, List.find?, this] at ih ⊢
        exact ih
      · simp only [cacheDel, List.filter] at ih ⊢
        rw [show (decide ¬ p.1 = c) = true by simp [hp]]
        simp only [cacheGet, List.find?] at ih ⊢
        cases hq : (p.1 == c') with
        | true => rfl
        | false => exact ih

theorem mem_modAdd_self (m : List CategoryName) (c : CategoryName) :
    c ∈ modAdd m c := by
  unfold modAdd
  split
  · assumption
  · simp

theorem mem_modAdd_iff (m : List CategoryName) (c c' : CategoryName) :
    c' ∈ modAdd m c ↔ c' ∈ m ∨ c' = c := by
  unfold modAdd
  split
  · rename_i h
    constructor
    · exact Or.inl
    · rintro (h2 | h2)
      · exact h2
      · exact h2 ▸ h
  · simp

theorem mem_modDel_iff (m : List CategoryName) (c c' : CategoryName) :
    c' ∈ modDel m c ↔ c' ∈ m ∧ c' ≠ c := by
  simp [modDel, List.mem_filter]

theorem getCategory_store (s : OptState) (c : CategoryName) :
    ((getCategory s c).2).store = s.store := by
  unfold getCategory
  split <;> rfl

theorem getCategory_modified (s : OptState) (c : CategoryName) :
    ((getCategory s c).2).modified = s.modified := by
  unfold getCategory
  split <;> rfl

theorem getCategory_events (s : OptState) (c : CategoryName) :
    ((getCategory s c).2).events = s.events ∨
      ((getCategory s c).2).events = s.events ++ [Ev.getData c] := by
  unfold getCategory
  split
  · exact Or.inl rfl
  · exact Or.inr rfl

theorem getCategory_fst (s : OptState) (c : CategoryName) :
    (getCategory s c).1 = match cacheGet s.cache c with
      | some fd => fd
      | none => s.store.get c := by
  unfold getCategory
  split <;> simp_all

theorem getCategory_cache_self (s : OptState) (c : CategoryName) :
    cacheGet ((getCategory s c).2).cache c = some (getCategory s c).1 := by
  unfold getCategory
  split
  · simp_all
  · simp only []
    exact cacheGet_set_self s.cache c (s.store.get c)

theorem getCategory_cache_ne (s : OptState) (c c' : CategoryName)
    (h : c' ≠ c) :
    cacheGet ((getCategory s c).2).cache c' = cacheGet s.cache c' := by
  unfold getCategory
  split
  · rfl
  · simp only []
    exact cacheGet_set_ne s.cache c c' (s.store.get c) h

theorem updateCategory_cache (s : OptState) (c : CategoryName) :
    (updateCategory s c).cache = s.cache := by
  unfold updateCategory
  split <;> rfl

theorem updateCategory_modified (s : OptState) (c : CategoryName) :
    (updateCategory s c).modified = s.modified := by
  unfold updateCategory
  split <;> rfl

theorem updateCategory_events (s : OptState) (c : CategoryName) :
    (updateCategory s c).events = s.events ∨
      (updateCategory s c).events = s.events ++ [Ev.setData c] := by
  unfold updateCategory
  split
  · exact Or.inr rfl
  · exact Or.inl rfl

theorem updateCategory_events_flush (s : OptState) (c : CategoryName)
    (h : (cacheGet s.cache c).isSome = true) :
    (updateCategory s c).events = s.events ++ [Ev.setData c] := by
  unfold updateCategory
  split
  · rfl
  · rename_i hn
    rw [hn] at h
    simp at h

theorem writeBackCategory_cache (s : OptState) (c : CategoryName) :
    (writeBackCategory s c).cache = s.cache := by
  unfold writeBackCategory
  split
  · exact updateCategory_cache s c
  · rfl

theorem writeBackCategory_mem_modified (s : OptState) (c c' : CategoryName) :
    c' ∈ (writeBackCategory s c).modified ↔ c' ∈ s.modified ∧ c' ≠ c := by
  unfold writeBackCategory
  split
  · rename_i h
    show c' ∈ modDel (updateCategory s c).modified c ↔ c' ∈ s.modified ∧ c' ≠ c
    rw [updateCategory_modified]
    exact mem_modDel_iff s.modified c c'
  · rename_i h
    constructor
    · intro h2
      refine ⟨h2, ?_⟩
      rintro rfl
      exact h h2
    · exact And.left

theorem writeBackCategory_events (s : OptState) (c : CategoryName) :
    ∃ E, (writeBackCategory s c).events = s.events ++ E ∧
      (E = [] ∨ E = [Ev.setData c]) ∧
      (c ∈ s.modified → (cacheGet s.cache c).isSome = true →
        E = [Ev.setData c]) := by
  unfold writeBackCategory
  split
  · rename_i h
    rcases hq : cacheGet s.cache c with _ | fd
    · refine ⟨[], ?_, Or.inl rfl, ?_⟩
      · unfold updateCategory
        rw [hq]
        simp
      · intro _ hs
        simp at hs
    · refine ⟨[Ev.setData c], ?_, Or.inr rfl, fun _ _ => rfl⟩
      unfold updateCategory
      rw [hq]
  · rename_i h
    exact ⟨[], by simp, Or.inl rfl, fun hm => absurd hm h⟩

theorem writeBackCategory_store_of_not_mem (s : OptState) (c : CategoryName)
    (h : c ∉ s.modified) : (writeBackCategory s c).store = s.store := by
  unfold writeBackCategory
  rw [if_neg h]

theorem flushList_spec (cats : List CategoryName) (s : OptState) :
    ∃ E, (flushList s cats).events = s.events ++ E ∧
      (∀ e ∈ E, ∃ c, c ∈ cats ∧ e = Ev.setData c) ∧
      (∀ c, c ∈ cats → c ∈ s.modified → (cacheGet s.cache c).isSome = true →
        Ev.setData c ∈ E) ∧
      (flushList s cats).cache = s.cache ∧
      (∀ c, c ∈ (flushList s cats).modified ↔ c ∈ s.modified ∧ c ∉ cats) := by
  induction cats generalizing s with
  | nil =>
      exact ⟨[], by simp [flushList], by simp, by simp, rfl, by simp [flushList]⟩
  | cons c rest ih =>
      have hstep : flushList s (c :: rest) = flushList (writeBackCategory s c) rest := rfl
      obtain ⟨E0, hE0, hE0cases, hE0flush⟩ := writeBackCategory_events s c
      obtain ⟨E, hE, hEonly, hEflush, hcache, hmod⟩ := ih (writeBackCategory s c)
      refine ⟨E0 ++ E, ?_, ?_, ?_, ?_, ?_⟩
      · rw [hstep, hE, hE0, List.append_assoc]
      · intro e he
        rcases List.mem_append.mp he with h | h
        · rcases hE0cases with rfl | rfl
          · simp at h
          · simp at h
            exact ⟨c, by simp, h⟩
        · obtain ⟨c', hc', he'⟩ := hEonly e h
          exact ⟨c', by simp [hc'], he'⟩
      · intro c' hc' hm hcached
        rcases List.mem_cons.mp hc' with rfl | hc'
        · rw [hE0flush hm hcached]
          simp
        · by_cases hcc : c' = c
          · subst hcc
            rw [hE0flush hm hcached]
            simp
          · refine List.mem_append.mpr (Or.inr ?_)
            refine hEflush c' hc' ?_ ?_
            · exact (writeBackCategory_mem_modified s c c').mpr ⟨hm, hcc⟩
            · rw [writeBackCategory_cache]
              exact hcached
      · rw [hstep, hcache, writeBackCategory_cache]
      · intro c'
        rw [hstep, hmod c', writeBackCategory_mem_modified]
        constructor
        · rintro ⟨⟨h1, h2⟩, h3⟩
          exact ⟨h1, by simp [h2, h3]⟩
        · rintro ⟨h1, h2⟩
          simp at h2
          exact ⟨⟨h1, h2.1⟩, h2.2⟩

theorem forgetCategoryCache_store (s : OptState) (c : CategoryName) :
    (forgetCategoryCache s c).store = s.store := by
  unfold forgetCategoryCache
  split <;> rfl

theorem forgetCategoryCache_events (s : OptState) (c : CategoryName) :
    (forgetCategoryCache s c).events = s.events ∨
      (forgetCategoryCache s c).events = s.events ++ [Ev.forget c] := by
  unfold forgetCategoryCache
  split
  · exact Or.inr rfl
  · exact Or.inl rfl

theorem forgetList_spec (cats : List CategoryName) (s : OptState) :
    ∃ E, (forgetList s cats).events = s.events ++ E ∧
      (∀ e ∈ E, ∃ c, c ∈ cats ∧ e = Ev.forget c) ∧
      (forgetList s cats).store = s.store := by
  induction cats generalizing s with
  | nil => exact ⟨[], by simp [forgetList], by simp, rfl⟩
  | cons c rest ih =>
      have hstep : forgetList s (c :: rest) =
        forgetList (forgetCategoryCache s c) rest := rfl
      obtain ⟨E, hE, hEonly, hstore⟩ := ih (forgetCategoryCache s c)
      rcases forgetCategoryCache_events s c with h0 | h0
      · refine ⟨E, ?_, ?_, ?_⟩
        · rw [hstep, hE, h0]
        · intro e he
          obtain ⟨c', hc', he'⟩ := hEonly e he
          exact ⟨c', by simp [hc'], he'⟩
        · rw [hstep, hstore, forgetCategoryCache_store]
      · refine ⟨Ev.forget c :: E, ?_, ?_, ?_⟩
        · rw [hstep, hE, h0]
          simp
        · intro e he
          rcases List.mem_cons.mp he with rfl | he
          · exact ⟨c, by simp, rfl⟩
          · obtain ⟨c', hc', he'⟩ := hEonly e he
            exact ⟨c', by simp [hc'], he'⟩
        · rw [hstep, hstore, forgetCategoryCache_store]

theorem findSettingValue_eq_some (fd : FormData) (sub st : String) (w : SVal) :
    findSettingValue fd sub st = some w ↔
      ∃ fld, findSetting fd sub st = some fld ∧ fld.value = w := by
  simp [findSettingValue, Option.map_eq_some']

theorem setValue_eq_absent (s : OptState) (item : DefinitionParam) (v : SVal)
    (hfs : findSetting (getCategory s item.category).1
      item.subCategory item.setting = none) :
    setValue s item v = (getCategory s item.category).2 := by
  unfold setValue
  rw [hfs]

theorem setValue_eq_same (s : OptState) (item : DefinitionParam) (v : SVal)
    (fld : SettingField)
    (hfs : findSetting (getCategory s item.category).1
      item.subCategory item.setting = some fld)
    (hsame : fld.value = v) :
    setValue s item v = (getCategory s item.category).2 := by
  unfold setValue
  rw [hfs]
  dsimp only
  rw [if_neg (not_not_intro hsame)]

theorem setValue_eq_diff_leaf (s : OptState) (item : DefinitionParam)
    (v : SVal) (fld : SettingField)
    (hdeps : item.dependents = none)
    (hfs : findSetting (getCategory s item.category).1
      item.subCategory item.setting = some fld)
    (hne : fld.value ≠ v) :
    setValue s item v =
      mutBase (getCategory s item.category).2 item v
        (getCategory s item.category).1 := by
  unfold setValue mutBase
  rw [hfs]
  dsimp only
  rw [if_pos hne, hdeps]

theorem setValue_eq_diff_deps (s : OptState) (item : DefinitionParam)
    (v : SVal) (fld : SettingField)
    (deps : List (SVal × List DefinitionParam))
    (hdeps : item.dependents = some deps)
    (hfs : findSetting (getCategory s item.category).1
      item.subCategory item.setting = some fld)
    (hne : fld.value ≠ v) :
    setValue s item v =
      forgetList
        (writeBackCategory
          (mutBase (flushList (getCategory s item.category).2 (depCats deps))
            item v (getCategory s item.category).1)
          item.category)
        (depCats deps) := by
  unfold setValue mutBase
  rw [hfs]
  dsimp only
  rw [if_pos hne, hdeps]

theorem mutBase_events (s0 : OptState) (item : DefinitionParam) (v : SVal)
    (fd : FormData) :
    (mutBase s0 item v fd).events = s0.events ++
      [Ev.mutateField item.category item.subCategory item.setting v] := rfl

/-- C2: when setValue changes the stored value of a node with dependents,
every dirty category referenced by a direct child of any branch is flushed
to the store before the node's cached value is mutated, the node's own
category is flushed immediately after the mutation, and only cache discards
of child categories (no store writes) happen afterwards; hence a pending
unflushed edit in a child category reaches the store's durable state before
that branch's cache is discarded. -/
theorem claim_C2_flush_before_forget (s : OptState) (item : DefinitionParam)
    (deps : List (SVal × List DefinitionParam)) (v w : SVal)
    (hdeps : item.dependents = some deps)
    (hfound : (findValue s item).1 = some w)
    (hchange : w ≠ v)
    (hdirty : ∀ c ∈ s.modified, (cacheGet s.cache c).isSome = true) :
    ∃ E1 E2, (setValue s item v).events =
        s.events ++ E1 ++
          (Ev.mutateField item.category item.subCategory item.setting v ::
            Ev.setData item.category :: E2) ∧
      (∀ e ∈ E1, e = Ev.getData item.category ∨
        ∃ c, c ∈ depCats deps ∧ e = Ev.setData c) ∧
      (∀ c, c ∈ depCats deps → c ∈ s.modified → Ev.setData c ∈ E1) ∧
      (∀ e ∈ E2, ∃ c, c ∈ depCats deps ∧ e = Ev.forget c) := by
  obtain ⟨fld, hfs, hfv⟩ := (findSettingValue_eq_some _ _ _ _).mp hfound
  have hne : fld.value ≠ v := hfv ▸ hchange
  rw [setValue_eq_diff_deps s item v fld deps hdeps hfs hne]
  have hmod1 : ((getCategory s item.category).2).modified = s.modified :=
    getCategory_modified s item.category
  have hdirty1 : ∀ c ∈ ((getCategory s item.category).2).modified,
      (cacheGet ((getCategory s item.category).2).cache c).isSome = true := by
    intro c hc
    rw [hmod1] at hc
    by_cases hcc : c = item.category
    · subst hcc
      rw [getCategory_cache_self]
      rfl
    · rw [getCategory_cache_ne s item.category c hcc]
      exact hdirty c hc
  obtain ⟨Ef, hEf, hEfonly, hEfflush, hEfcache, hEfmod⟩ :=
    flushList_spec (depCats deps) (getCategory s item.category).2
  set s2 := flushList (getCategory s item.category).2 (depCats deps) with hs2
  set s3 := mutBase s2 item v (getCategory s item.category).1 with hs3
  have hcat3 : item.category ∈ s3.modified :=
    mem_modAdd_self s2.modified item.category
  have hcache3 : (cacheGet s3.cache item.category).isSome = true := by
    rw [hs3]
    show (cacheGet (cacheSet s2.cache item.category _) item.category).isSome
      = true
    rw [cacheGet_set_self]
    rfl
  obtain ⟨E0, hE0, _, hE0flush⟩ := writeBackCategory_events s3 item.category
  have hE0' : E0 = [Ev.setData item.category] := hE0flush hcat3 hcache3
  obtain ⟨E2, hE2, hE2only, _⟩ :=
    forgetList_spec (depCats deps) (writeBackCategory s3 item.category)
  have hs3ev : s3.events = s2.events ++
      [Ev.mutateField item.category item.subCategory item.setting v] := rfl
  rcases getCategory_events s item.category with hg | hg
  · refine ⟨Ef, E2, ?_, ?_, ?_, hE2only⟩
    · rw [hE2, hE0, hE0', hs3ev, hEf, hg]
      simp
    · intro e he
      obtain ⟨c, hc, he'⟩ := hEfonly e he
      exact Or.inr ⟨c, hc, he'⟩
    · intro c hc hm
      exact hEfflush c hc (hmod1 ▸ hm) (hdirty1 c (hmod1 ▸ hm))
  · refine ⟨Ev.getData item.category :: Ef, E2, ?_, ?_, ?_, hE2only⟩
    · rw [hE2, hE0, hE0', hs3ev, hEf, hg]
      simp
    · intro e he
      rcases List.mem_cons.mp he with rfl | he
      · exact Or.inl rfl
      · obtain ⟨c, hc, he'⟩ := hEfonly e he
        exact Or.inr ⟨c, hc, he'⟩
    · intro c hc hm
      exact List.mem_cons_of_mem _
        (hEfflush c hc (hmod1 ▸ hm) (hdirty1 c (hmod1 ▸ hm)))

theorem claim_C2_flush_before_forget_witness :
    ∃ E1 E2, (setValue c2state dOutputMode (.str ("Advanced"))).events =
        c2state.events ++ E1 ++
          (Ev.mutateField dOutputMode.category dOutputMode.subCategory
              dOutputMode.setting (.str ("Advanced")) ::
            Ev.setData dOutputMode.category :: E2) ∧
      (∀ e ∈ E1, e = Ev.getData dOutputMode.category ∨
        ∃ c, c ∈ depCats c2deps ∧ e = Ev.setData c) ∧
      (∀ c, c ∈ depCats c2deps → c ∈ c2state.modified → Ev.setData c ∈ E1) ∧
      (∀ e ∈ E2, ∃ c, c ∈ depCats c2deps ∧ e = Ev.forget c) :=
  claim_C2_flush_before_forget c2state dOutputMode c2deps
    (.str ("Advanced")) (.str ("Simple")) rfl rfl (by decide) (by decide)

theorem dirtySub_getCategory (s : OptState) (c : CategoryName)
    (h : DirtySub s) : DirtySub ((getCategory s c).2) := by
  intro c' hc'
  rw [getCategory_modified] at hc'
  by_cases hcc : c' = c
  · subst hcc
    rw [getCategory_cache_self]
    rfl
  · rw [getCategory_cache_ne s c c' hcc]
    exact h c' hc'

theorem dirtySub_writeBackCategory (s : OptState) (c : CategoryName)
    (h : DirtySub s) : DirtySub (writeBackCategory s c) := by
  intro c' hc'
  rw [writeBackCategory_mem_modified] at hc'
  rw [writeBackCategory_cache]
  exact h c' hc'.1

theorem dirtySub_flushList (cats : List CategoryName) (s : OptState)
    (h : DirtySub s) : DirtySub (flushList s cats) := by
  induction cats generalizing s with
  | nil => exact h
  | cons c rest ih =>
      exact ih (writeBackCategory s c) (dirtySub_writeBackCategory s c h)

theorem dirtySub_forgetCategoryCache (s : OptState) (c : CategoryName)
    (h : DirtySub s) : DirtySub (forgetCategoryCache s c) := by
  unfold forgetCategoryCache
  split
  · intro c' hc'
    simp only [] at hc' ⊢
    rw [mem_modDel_iff] at hc'
    rw [cacheGet_del_ne s.cache c c' hc'.2]
    exact h c' hc'.1
  · exact h

theorem dirtySub_forgetList (cats : List CategoryName) (s : OptState)
    (h : DirtySub s) : DirtySub (forgetList s cats) := by
  induction cats generalizing s with
  | nil => exact h
  | cons c rest ih =>
      exact ih (forgetCategoryCache s c) (dirtySub_forgetCategoryCache s c h)

theorem dirtySub_mutBase (s0 : OptState) (item : DefinitionParam) (v : SVal)
    (fd : FormData) (h : DirtySub s0) : DirtySub (mutBase s0 item v fd) := by
  intro c' hc'
  simp only [mutBase] at hc' ⊢
  rw [mem_modAdd_iff] at hc'
  rcases hc' with hc' | rfl
  · exact cacheGet_set_isSome _ _ _ _ (h c' hc')
  · rw [cacheGet_set_self]
    rfl

theorem dirtySub_setValue (s : OptState) (item : DefinitionParam) (v : SVal)
    (h : DirtySub s) : DirtySub (setValue s item v) := by
  rcases hq : findSetting (getCategory s item.category).1
      item.subCategory item.setting with _ | fld
  · rw [setValue_eq_absent s item v hq]
    exact dirtySub_getCategory s item.category h
  · by_cases hsame : fld.value = v
    · rw [setValue_eq_same s item v fld hq hsame]
      exact dirtySub_getCategory s item.category h
    · rcases hdeps : item.dependents with _ | deps
      · rw [setValue_eq_diff_leaf s item v fld hdeps hq hsame]
        exact dirtySub_mutBase _ item v _
          (dirtySub_getCategory s item.category h)
      · rw [setValue_eq_diff_deps s item v fld deps hdeps hq hsame]
        exact dirtySub_forgetList _ _
          (dirtySub_writeBackCategory _ _
            (dirtySub_mutBase _ item v _
              (dirtySub_flushList _ _
                (dirtySub_getCategory s item.category h))))

theorem dirtySub_setValueRestore (s : OptState) (item : DefinitionParam)
    (v : Option SVal) (h : DirtySub s) : DirtySub (setValueRestore s item v) := by
  cases v with
  | some v => exact dirtySub_setValue s item v h
  | none => exact dirtySub_getCategory s item.category h

mutual
theorem dirtySub_setValues (s : OptState) (values : OptimizeSettings)
    (defs : List DefinitionParam) (h : DirtySub s) :
    DirtySub (setValues s values defs) := by
  match defs with
  | [] => exact h
  | item :: rest =>
      rw [show setValues s values (item :: rest) =
        setValues (setValuesItem s values item) values rest from rfl]
      exact dirtySub_setValues _ values rest
        (dirtySub_setValuesItem s values item h)

theorem dirtySub_setValuesItem (s : OptState) (values : OptimizeSettings)
    (item : DefinitionParam) (h : DirtySub s) :
    DirtySub (setValuesItem s values item) := by
  match item with
  | .mk k c sub st l b none =>
      rw [setValuesItem]
      rcases values k with _ | v
      · exact h
      · exact dirtySub_setValue _ _ _ h
  | .mk k c sub st l b (some deps) =>
      rw [setValuesItem]
      have h2 : DirtySub (setValuesDeps
          (findValue s (.mk k c sub st l b (some deps))).2 values
          (.mk k c sub st l b (some deps)) deps) :=
        dirtySub_setValuesDeps _ values _ deps
          (dirtySub_getCategory s _ h)
      rcases values k with _ | v
      · exact dirtySub_setValueRestore _ _ _ h2
      · exact dirtySub_setValue _ _ _ h2

theorem dirtySub_setValuesDeps (s : OptState) (values : OptimizeSettings)
    (item : DefinitionParam) (deps : List (SVal × List DefinitionParam))
    (h : DirtySub s) : DirtySub (setValuesDeps s values item deps) := by
  match deps with
  | [] => exact h
  | (dv, ps) :: rest =>
      rw [setValuesDeps]
      refine dirtySub_setValuesDeps _ values item rest ?_
      by_cases hdep : isDependValues values ps
      · rw [if_pos hdep]
        exact dirtySub_setValues _ values ps (dirtySub_setValue s item dv h)
      · rw [if_neg hdep]
        exact h
end

mutual
theorem dirtySub_getValuesList (s : OptState) (defs : List DefinitionParam)
    (h : DirtySub s) : DirtySub (getValuesList s defs).2 := by
  match defs with
  | [] => exact h
  | item :: rest =>
      rw [show (getValuesList s (item :: rest)).2 =
        (getValuesList (getValuesItem s item).2 rest).2 from rfl]
      exact dirtySub_getValuesList _ rest (dirtySub_getValuesItem s item h)

theorem dirtySub_getValuesItem (s : OptState) (item : DefinitionParam)
    (h : DirtySub s) : DirtySub (getValuesItem s item).2 := by
  match item with
  | .mk k c sub st l b none =>
      rw [show (getValuesItem s (.mk k c sub st l b none)).2 =
        (findValue s (.mk k c sub st l b none)).2 from rfl]
      exact dirtySub_getCategory s _ h
  | .mk k c sub st l b (some deps) =>
      rw [show (getValuesItem s (.mk k c sub st l b (some deps))).2 =
        setValueRestore
          (getValuesDeps (findValue s (.mk k c sub st l b (some deps))).2
            (.mk k c sub st l b (some deps)) deps).2
          (.mk k c sub st l b (some deps))
          (findValue s (.mk k c sub st l b (some deps))).1 from rfl]
      exact dirtySub_setValueRestore _ _ _
        (dirtySub_getValuesDeps _ _ deps (dirtySub_getCategory s _ h))

theorem dirtySub_getValuesDeps (s : OptState) (item : DefinitionParam)
    (deps : List (SVal × List DefinitionParam)) (h : DirtySub s) :
    DirtySub (getValuesDeps s item deps).2 := by
  match deps with
  | [] => exact h
  | (dv, ps) :: rest =>
      rw [show (getValuesDeps s item ((dv, ps) :: rest)).2 =
        (getValuesDeps (getValuesList (setValue s item dv) ps).2 item rest).2
        from rfl]
      exact dirtySub_getValuesDeps _ item rest
        (dirtySub_getValuesList _ ps (dirtySub_setValue s item dv h))
end

theorem updateCategory_events_mono (s : OptState) (c : CategoryName) (e : Ev)
    (h : e ∈ s.events) : e ∈ (updateCategory s c).events := by
  rcases updateCategory_events s c with h2 | h2 <;> rw [h2] <;> simp [h]

theorem foldlUpdate_events_mono (L : List CategoryName) (s : OptState) (e : Ev)
    (h : e ∈ s.events) : e ∈ (L.foldl updateCategory s).events := by
  induction L generalizing s with
  | nil => exact h
  | cons c rest ih =>
      exact ih (updateCategory s c) (updateCategory_events_mono s c e h)

theorem foldlUpdate_flushes (L : List CategoryName) (s : OptState)
    (h : ∀ c ∈ L, (cacheGet s.cache c).isSome = true) :
    ∀ c ∈ L, Ev.setData c ∈ (L.foldl updateCategory s).events := by
  induction L generalizing s with
  | nil => intro c hc; simp at hc
  | cons c0 rest ih =>
      intro c hc
      have hev : (updateCategory s c0).events = s.events ++ [Ev.setData c0] :=
        updateCategory_events_flush s c0 (h c0 (by simp))
      rcases List.mem_cons.mp hc with rfl | hc
      · refine foldlUpdate_events_mono rest (updateCategory s c) _ ?_
        rw [hev]
        simp
      · refine ih (updateCategory s c0) ?_ c hc
        intro c' hc'
        rw [updateCategory_cache]
        exact h c' (by simp [hc'])

/-- C10: in every optimizer state reachable through the public operations,
every dirty category has a cache entry, and therefore the cached-entry guard
inside updateCategory never silently skips a dirty category during flush or
flushAll. -/
theorem claim_C10_dirty_cached :
    (∀ st : Store, DirtySub ⟨st, [], [], []⟩) ∧
    (∀ (s : OptState) (values : OptimizeSettings), DirtySub s →
      DirtySub (optimize s values definitionParams)) ∧
    (∀ s : OptState, DirtySub s →
      DirtySub (getCurrentSettings s definitionParams).2) ∧
    (∀ (s : OptState) (c : CategoryName), DirtySub s → c ∈ s.modified →
      (writeBackCategory s c).events = s.events ++ [Ev.setData c]) ∧
    (∀ s : OptState, DirtySub s → ∀ c ∈ s.modified,
      Ev.setData c ∈ (writeBackAllCategories s).events) := by
  refine ⟨?_, ?_, ?_, ?_, ?_⟩
  · intro st c hc
    simp at hc
  · intro s values _ c hc
    simp only [optimize, writeBackAllCategories] at hc
    simp at hc
  · intro s h
    exact dirtySub_getValuesList s definitionParams h
  · intro s c h hc
    obtain ⟨E, hE, _, hflush⟩ := writeBackCategory_events s c
    rw [hE, hflush hc (h c hc)]
  · intro s h c hc
    exact foldlUpdate_flushes s.modified s (fun c' hc' => h c' hc') c hc

theorem claim_C10_dirty_cached_witness :
    DirtySub (optimize ⟨⟨[], [], []⟩, [], [], []⟩ (fun _ => none)
      definitionParams) :=
  claim_C10_dirty_cached.2.1 ⟨⟨[], [], []⟩, [], [], []⟩ (fun _ => none)
    (claim_C10_dirty_cached.1 ⟨[], [], []⟩)

theorem Store.get_set_self (st : Store) (c : CategoryName) (fd : FormData) :
    (st.set c fd).get c = fd := by
  cases c <;> rfl

theorem Store.get_set_ne (st : Store) (c c' : CategoryName) (fd : FormData)
    (h : c' ≠ c) : (st.set c fd).get c' = st.get c' := by
  cases c <;> cases c' <;> first | rfl | exact absurd rfl h

theorem updateField_find_ne (fd : FormData) (sub st sub' st' : String)
    (v : SVal) (h : ¬ (sub' = sub ∧ st' = st)) :
    findSettingValue (updateField fd sub st v) sub' st' =
      findSettingValue fd sub' st' := by
  induction fd with
  | nil => rfl
  | cons f rest ih =>
      by_cases hf : (f.subCategory == sub && f.setting == st) = true
      · simp only [updateField, hf, if_true]
        have hf2 : f.subCategory = sub ∧ f.setting = st := by
          simpa using hf
        have hne : ({ f with value := v } : SettingField).subCategory = sub'
            ∧ ({ f with value := v } : SettingField).setting = st' → False := by
          rintro ⟨h1, h2⟩
          simp only [] at h1 h2
          exact h ⟨h1 ▸ hf2.1.symm ▸ rfl, h2 ▸ hf2.2.symm ▸ rfl⟩
        have hneOrig : f.subCategory = sub' ∧ f.setting = st' → False := by
          rintro ⟨h1, h2⟩
          exact hne ⟨h1, h2⟩
        simp only [findSettingValue, findSetting, List.find?]
        rw [show (f.subCategory == sub' && f.setting == st') = false by
            simp only [Bool.and_eq_false_iff, beq_eq_false_iff_ne]
            by_cases hq : f.subCategory = sub'
            · exact Or.inr (fun hh => hneOrig ⟨hq, hh⟩)
            · exact Or.inl hq]
      · simp only [updateField, hf, if_false]
        simp only [findSettingValue, findSetting, List.find?] at ih ⊢
        cases hq : (f.subCategory == sub' && f.setting == st') with
        | true => rfl
        | false => exact ih

theorem updateField_find_self (fd : FormData) (sub st : String) (v : SVal)
    (h : (findSetting fd sub st).isSome = true) :
    findSettingValue (updateField fd sub st v) sub st = some v := by
  induction fd with
  | nil => simp [findSetting] at h
  | cons f rest ih =>
      by_cases hf : (f.subCategory == sub && f.setting == st) = true
      · simp only [updateField, hf, if_true]
        simp only [findSettingValue, findSetting, List.find?]
        rw [show (({ f with value := v } : SettingField).subCategory == sub
              && ({ f with value := v } : SettingField).setting == st) = true by
            simpa using hf]
        rfl
      · simp only [updateField, hf, if_false]
        simp only [findSettingValue, findSetting, List.find?] at ih ⊢
        rw [Bool.not_eq_true] at hf
        rw [hf]
        simp only [findSetting, List.find?, hf] at h
        exact ih h

theorem settled_store (s : OptState) (a : Addr) (v : Option SVal)
    (hm : a.1 ∉ s.modified) (h : Settled s a v) :
    fieldValue s.store a = v := by
  unfold Settled at h
  rcases hq : cacheGet s.cache a.1 with _ | fd
  · rw [hq] at h
    exact h
  · rw [hq] at h
    rcases h.2 with h2 | h2
    · exact absurd h2 hm
    · exact h2

theorem settled_getCategory (s : OptState) (c : CategoryName) (a : Addr)
    (v : Option SVal) (h : Settled s a v) :
    Settled ((getCategory s c).2) a v := by
  unfold getCategory
  rcases hq : cacheGet s.cache c with _ | fd
  · by_cases hac : a.1 = c
    · subst hac
      unfold Settled at h ⊢
      simp only []
      rw [cacheGet_set_self]
      rw [hq] at h
      exact ⟨h, Or.inr h⟩
    · unfold Settled at h ⊢
      simp only []
      rw [cacheGet_set_ne s.cache c a.1 (s.store.get c) hac]
      exact h
  · simpa using h

theorem settled_updateCategory (s : OptState) (c : CategoryName) (a : Addr)
    (v : Option SVal) (h : Settled s a v) :
    Settled (updateCategory s c) a v := by
  unfold updateCategory
  rcases hq : cacheGet s.cache c with _ | fd
  · exact h
  · by_cases hac : a.1 = c
    · subst hac
      unfold Settled at h ⊢
      rw [hq] at h ⊢
      simp only []
      refine ⟨h.1, Or.inr ?_⟩
      unfold fieldValue
      rw [Store.get_set_self]
      exact h.1
    · unfold Settled at h ⊢
      simp only []
      rcases hq2 : cacheGet s.cache a.1 with _ | fd2
      · rw [hq2] at h
        unfold fieldValue at h ⊢
        rw [Store.get_set_ne s.store c a.1 fd hac]
        exact h
      · rw [hq2] at h
        refine ⟨h.1, ?_⟩
        rcases h.2 with h2 | h2
        · exact Or.inl h2
        · refine Or.inr ?_
          unfold fieldValue at h2 ⊢
          rw [Store.get_set_ne s.store c a.1 fd hac]
          exact h2

theorem settled_writeBackCategory (s : OptState) (c : CategoryName) (a : Addr)
    (v : Option SVal) (h : Settled s a v) :
    Settled (writeBackCategory s c) a v := by
  unfold writeBackCategory
  split
  · rename_i hm
    have h1 := settled_updateCategory s c a v h
    unfold Settled at h1 ⊢
    rw [updateCategory_cache] at h1 ⊢
    rcases hq2 : cacheGet s.cache a.1 with _ | fd2
    · rw [hq2] at h1
      exact h1
    · rw [hq2] at h1
      refine ⟨h1.1, ?_⟩
      rcases h1.2 with h2 | h2
      · rw [updateCategory_modified] at h2
        by_cases hac : a.1 = c
        · subst hac
          -- the category is being flushed right now; it is cached, so the
          -- store receives the cached data
          refine Or.inr ?_
          unfold updateCategory
          rw [hq2]
          simp only []
          unfold fieldValue
          rw [Store.get_set_self]
          exact h1.1
        · refine Or.inl ?_
          show a.1 ∈ modDel (updateCategory s c).modified c
          rw [mem_modDel_iff, updateCategory_modified]
          exact ⟨h2, hac⟩
      · exact Or.inr h2
  · exact h

theorem settled_flushList (cats : List CategoryName) (s : OptState) (a : Addr)
    (v : Option SVal) (h : Settled s a v) :
    Settled (flushList s cats) a v := by
  induction cats generalizing s with
  | nil => exact h
  | cons c rest ih =>
      exact ih (writeBackCategory s c) (settled_writeBackCategory s c a v h)

theorem forgetCategoryCache_modified_subset (s : OptState) (c c' : CategoryName)
    (h : c' ∈ (forgetCategoryCache s c).modified) : c' ∈ s.modified := by
  unfold forgetCategoryCache at h
  split at h
  · simp only [] at h
    exact ((mem_modDel_iff s.modified c c').mp h).1
  · exact h

theorem forgetList_modified_subset (cats : List CategoryName) (s : OptState)
    (c' : CategoryName) (h : c' ∈ (forgetList s cats).modified) :
    c' ∈ s.modified := by
  induction cats generalizing s with
  | nil => exact h
  | cons c rest ih =>
      exact forgetCategoryCache_modified_subset s c c'
        (ih (forgetCategoryCache s c) h)

theorem settled_forgetCategoryCache (s : OptState) (c : CategoryName)
    (a : Addr) (v : Option SVal)
    (hcond : a.1 = c → c ∉ s.modified)
    (h : Settled s a v) : Settled (forgetCategoryCache s c) a v := by
  unfold forgetCategoryCache
  split
  · rename_i hc
    by_cases hac : a.1 = c
    · subst hac
      unfold Settled at h ⊢
      simp only []
      rw [cacheGet_del_self]
      rcases hq : cacheGet s.cache a.1 with _ | fd
      · rw [hq] at h
        exact h
      · rw [hq] at h
        rcases h.2 with h2 | h2
        · exact absurd h2 (hcond rfl)
        · exact h2
    · unfold Settled at h ⊢
      simp only []
      rw [cacheGet_del_ne s.cache c a.1 hac]
      rcases hq : cacheGet s.cache a.1 with _ | fd
      · rw [hq] at h
        exact h
      · rw [hq] at h
        refine ⟨h.1, ?_⟩
        rcases h.2 with h2 | h2
        · refine Or.inl ?_
          rw [mem_modDel_iff]
          exact ⟨h2, hac⟩
        · exact Or.inr h2
  · exact h

theorem settled_forgetList (cats : List CategoryName) (s : OptState)
    (a : Addr) (v : Option SVal)
    (hcond : a.1 ∈ cats → a.1 ∉ s.modified)
    (h : Settled s a v) : Settled (forgetList s cats) a v := by
  induction cats generalizing s with
  | nil => exact h
  | cons c rest ih =>
      refine ih (forgetCategoryCache s c) ?_
        (settled_forgetCategoryCache s c a v ?_ h)
      · intro hmem hcontra
        exact hcond (by simp [hmem]) (forgetCategoryCache_modified_subset s c _ hcontra)
      · intro hac
        subst hac
        exact fun hc => hcond (by simp) hc

theorem settled_mutBase_ne (s0 : OptState) (item : DefinitionParam) (v' : SVal)
    (fd : FormData) (a : Addr) (v : Option SVal)
    (hfd : cacheGet s0.cache item.category = some fd)
    (hne : a ≠ item.addr)
    (h : Settled s0 a v) : Settled (mutBase s0 item v' fd) a v := by
  unfold Settled at h ⊢
  unfold mutBase
  simp only []
  by_cases hac : a.1 = item.category
  · rw [hac, cacheGet_set_self]
    rw [show a.1 = item.category from hac, hfd] at h
    have hsub : ¬ (a.2.1 = item.subCategory ∧ a.2.2 = item.setting) := by
      rintro ⟨h1, h2⟩
      refine hne ?_
      unfold DefinitionParam.addr
      rw [← hac, ← h1, ← h2]
      rfl
    constructor
    · rw [updateField_find_ne fd item.subCategory item.setting a.2.1 a.2.2 v'
        hsub]
      exact h.1
    · exact Or.inl (mem_modAdd_self s0.modified item.category)
  · rw [cacheGet_set_ne s0.cache item.category a.1 _ hac]
    rcases hq : cacheGet s0.cache a.1 with _ | fd2
    · rw [hq] at h
      exact h
    · rw [hq] at h
      refine ⟨h.1, ?_⟩
      rcases h.2 with h2 | h2
      · exact Or.inl ((mem_modAdd_iff s0.modified item.category a.1).mpr
          (Or.inl h2))
      · exact Or.inr h2

theorem settled_mutBase_self (s0 : OptState) (item : DefinitionParam)
    (v' : SVal) (fd : FormData)
    (hfd : cacheGet s0.cache item.category = some fd)
    (hfind : (findSetting fd item.subCategory item.setting).isSome = true) :
    Settled (mutBase s0 item v' fd) item.addr (some v') := by
  unfold Settled mutBase
  simp only []
  have haddr1 : (item.addr).1 = item.category := rfl
  rw [haddr1, cacheGet_set_self]
  constructor
  · show findSettingValue (updateField fd item.subCategory item.setting v')
      item.subCategory item.setting = some v'
    exact updateField_find_self fd item.subCategory item.setting v' hfind
  · exact Or.inl (mem_modAdd_self s0.modified item.category)

/-- Reading through getCategory returns the settled value. -/
theorem settled_read (s : OptState) (a : Addr) (v : Option SVal)
    (h : Settled s a v) :
    findSettingValue (getCategory s a.1).1 a.2.1 a.2.2 = v := by
  unfold Settled at h
  rw [getCategory_fst]
  rcases hq : cacheGet s.cache a.1 with _ | fd
  · rw [hq] at h
    exact h
  · rw [hq] at h
    exact h.1

theorem settled_findValue (s : OptState) (item : DefinitionParam)
    (v : Option SVal) (h : Settled s item.addr v) :
    (findValue s item).1 = v := by
  unfold findValue
  exact settled_read s item.addr v h

/-- After the pre-flush of setValue the branch-children categories are no
longer dirty. -/
theorem setValue_forget_precondition (s1 : OptState) (item : DefinitionParam)
    (v : SVal) (deps : List (SVal × List DefinitionParam)) (a : Addr)
    (hmem : a.1 ∈ depCats deps) :
    a.1 ∉ (writeBackCategory
      (mutBase (flushList s1 (depCats deps)) item v
        (getCategory s item.category).1) item.category).modified := by
  intro hcontra
  rw [writeBackCategory_mem_modified] at hcontra
  obtain ⟨h1, h2⟩ := hcontra
  have h3 : a.1 ∈ modAdd (flushList s1 (depCats deps)).modified item.category := h1
  rw [mem_modAdd_iff] at h3
  rcases h3 with h3 | h3
  · obtain ⟨_, _, _, _, _, hmod⟩ := flushList_spec (depCats deps) s1
    exact ((hmod a.1).mp h3).2 hmem
  · exact h2 h3

theorem flushList_cache (cats : List CategoryName) (s : OptState) :
    (flushList s cats).cache = s.cache := by
  obtain ⟨_, _, _, _, h, _⟩ := flushList_spec cats s
  exact h

theorem flushList_mem_modified (cats : List CategoryName) (s : OptState)
    (c : CategoryName) :
    c ∈ (flushList s cats).modified ↔ c ∈ s.modified ∧ c ∉ cats := by
  obtain ⟨_, _, _, _, _, h⟩ := flushList_spec cats s
  exact h c

/-- setValue at a different address leaves the settled value unchanged. -/
theorem settled_setValue_ne (s : OptState) (item : DefinitionParam) (v' : SVal)
    (a : Addr) (v : Option SVal) (hne : a ≠ item.addr)
    (h : Settled s a v) : Settled (setValue s item v') a v := by
  have h1 : Settled ((getCategory s item.category).2) a v :=
    settled_getCategory s item.category a v h
  rcases hq : findSetting (getCategory s item.category).1
      item.subCategory item.setting with _ | fld
  · rw [setValue_eq_absent s item v' hq]
    exact h1
  · by_cases hsame : fld.value = v'
    · rw [setValue_eq_same s item v' fld hq hsame]
      exact h1
    · rcases hdeps : item.dependents with _ | deps
      · rw [setValue_eq_diff_leaf s item v' fld hdeps hq hsame]
        exact settled_mutBase_ne _ item v' _ a v
          (getCategory_cache_self s item.category) hne h1
      · rw [setValue_eq_diff_deps s item v' fld deps hdeps hq hsame]
        have h2 : Settled (flushList (getCategory s item.category).2
            (depCats deps)) a v :=
          settled_flushList (depCats deps) _ a v h1
        have hfd2 : cacheGet (flushList (getCategory s item.category).2
              (depCats deps)).cache item.category =
            some (getCategory s item.category).1 := by
          rw [flushList_cache]
          exact getCategory_cache_self s item.category
        have h3 := settled_mutBase_ne _ item v' _ a v hfd2 hne h2
        have h4 := settled_writeBackCategory _ item.category a v h3
        refine settled_forgetList (depCats deps) _ a v ?_ h4
        intro hmem
        exact setValue_forget_precondition _ item v' deps a hmem

/-- setValue on a present field settles the new value at the item's own
address. -/
theorem settled_setValue_self (s : OptState) (item : DefinitionParam)
    (v' : SVal) (w : SVal) (h : Settled s item.addr (some w)) :
    Settled (setValue s item v') item.addr (some v') := by
  have hread := settled_read s item.addr (some w) h
  have hfind : (findSetting (getCategory s item.addr.1).1
      item.addr.2.1 item.addr.2.2).isSome = true := by
    unfold findSettingValue at hread
    rcases hq : findSetting (getCategory s item.addr.1).1
        item.addr.2.1 item.addr.2.2 with _ | fld
    · rw [hq] at hread
      simp at hread
    · rfl
  have haddr1 : item.addr.1 = item.category := rfl
  have haddr2 : item.addr.2.1 = item.subCategory := rfl
  have haddr3 : item.addr.2.2 = item.setting := rfl
  rw [haddr1, haddr2, haddr3] at hfind hread
  rcases hq : findSetting (getCategory s item.category).1
      item.subCategory item.setting with _ | fld
  · rw [hq] at hfind
    simp at hfind
  · have hfldv : fld.value = w := by
      unfold findSettingValue at hread
      rw [hq] at hread
      simpa using hread
    have h1 : Settled ((getCategory s item.category).2) item.addr (some w) :=
      settled_getCategory s item.category item.addr (some w) h
    by_cases hsame : fld.value = v'
    · rw [setValue_eq_same s item v' fld hq hsame]
      have hwv : w = v' := by
        rw [hfldv] at hsame
        exact hsame
      rw [← hwv]
      exact h1
    · rcases hdeps : item.dependents with _ | deps
      · rw [setValue_eq_diff_leaf s item v' fld hdeps hq hsame]
        exact settled_mutBase_self _ item v' _
          (getCategory_cache_self s item.category) hfind
      · rw [setValue_eq_diff_deps s item v' fld deps hdeps hq hsame]
        have hfd2 : cacheGet (flushList (getCategory s item.category).2
              (depCats deps)).cache item.category =
            some (getCategory s item.category).1 := by
          rw [flushList_cache]
          exact getCategory_cache_self s item.category
        have h3 := settled_mutBase_self
          (flushList (getCategory s item.category).2 (depCats deps))
          item v' _ hfd2 hfind
        have h4 := settled_writeBackCategory _ item.category item.addr
          (some v') h3
        refine settled_forgetList (depCats deps) _ item.addr (some v') ?_ h4
        intro hmem
        exact setValue_forget_precondition _ item v' deps item.addr hmem

/-- setValue on an absent field is a no-op: every settled value survives,
including the absence at the item's own address. -/
theorem settled_setValue_absent (s : OptState) (item : DefinitionParam)
    (v' : SVal) (habs : Settled s item.addr none)
    (a : Addr) (v : Option SVal) (h : Settled s a v) :
    Settled (setValue s item v') a v := by
  have hread := settled_read s item.addr none habs
  have hfs : findSetting (getCategory s item.category).1
      item.subCategory item.setting = none := by
    have haddr1 : item.addr.1 = item.category := rfl
    have haddr2 : item.addr.2.1 = item.subCategory := rfl
    have haddr3 : item.addr.2.2 = item.setting := rfl
    rw [haddr1, haddr2, haddr3] at hread
    unfold findSettingValue at hread
    rcases hq : findSetting (getCategory s item.category).1
        item.subCategory item.setting with _ | fld
    · rfl
    · rw [hq] at hread
      simp at hread
  rw [setValue_eq_absent s item v' hfs]
  exact settled_getCategory s item.category a v h

theorem settled_setValueRestore (s : OptState) (item : DefinitionParam)
    (v0 : Option SVal) (a : Addr) (v : Option SVal)
    (hne : a ≠ item.addr) (h : Settled s a v) :
    Settled (setValueRestore s item v0) a v := by
  cases v0 with
  | some w => exact settled_setValue_ne s item w a v hne h
  | none => exact settled_getCategory s item.category a v h

theorem cc_getCategory (s : OptState) (c : CategoryName)
    (h : CacheConsistent s) : CacheConsistent ((getCategory s c).2) := by
  unfold getCategory
  rcases hq : cacheGet s.cache c with _ | fd
  · intro c' fd' hfd' hm'
    simp only [] at hfd' hm'
    by_cases hcc : c' = c
    · subst hcc
      rw [cacheGet_set_self] at hfd'
      injection hfd' with hfd'
      exact hfd'.symm
    · rw [cacheGet_set_ne s.cache c c' _ hcc] at hfd'
      exact h c' fd' hfd' hm'
  · exact h

theorem cc_updateCategory (s : OptState) (c : CategoryName)
    (h : CacheConsistent s) : CacheConsistent (updateCategory s c) := by
  unfold updateCategory
  rcases hq : cacheGet s.cache c with _ | fd
  · exact h
  · intro c' fd' hfd' hm'
    simp only [] at hfd' hm'
    by_cases hcc : c' = c
    · subst hcc
      rw [hq] at hfd'
      injection hfd' with hfd'
      rw [Store.get_set_self]
      exact hfd'.symm
    · rw [Store.get_set_ne s.store c c' fd hcc]
      exact h c' fd' hfd' hm'

theorem updateCategory_store_get (s : OptState) (c c' : CategoryName) :
    (updateCategory s c).store.get c' =
      if c' = c then
        match cacheGet s.cache c with
        | some fd => fd
        | none => s.store.get c'
      else s.store.get c' := by
  unfold updateCategory
  rcases hq : cacheGet s.cache c with _ | fd
  · dsimp only
    split <;> rfl
  · dsimp only
    by_cases hcc : c' = c
    · rw [if_pos hcc, hcc, Store.get_set_self]
    · rw [if_neg hcc, Store.get_set_ne s.store c c' fd hcc]

theorem cc_writeBackCategory (s : OptState) (c : CategoryName)
    (h : CacheConsistent s) : CacheConsistent (writeBackCategory s c) := by
  unfold writeBackCategory
  split
  · rename_i hcm
    intro c' fd' hfd' hm'
    have hc1 : cacheGet s.cache c' = some fd' := by
      have : cacheGet (updateCategory s c).cache c' = some fd' := hfd'
      rw [updateCategory_cache] at this
      exact this
    have hm2 : c' ∉ modDel (updateCategory s c).modified c := hm'
    rw [updateCategory_modified] at hm2
    show fd' = (updateCategory s c).store.get c'
    rw [updateCategory_store_get]
    by_cases hcc : c' = c
    · rw [if_pos hcc, ← hcc, hc1]
    · rw [if_neg hcc]
      have hm3 : c' ∉ s.modified := by
        intro hcontra
        exact hm2 ((mem_modDel_iff s.modified c c').mpr ⟨hcontra, hcc⟩)
      exact h c' fd' hc1 hm3
  · exact h

theorem cc_flushList (cats : List CategoryName) (s : OptState)
    (h : CacheConsistent s) : CacheConsistent (flushList s cats) := by
  induction cats generalizing s with
  | nil => exact h
  | cons c rest ih =>
      exact ih (writeBackCategory s c) (cc_writeBackCategory s c h)

theorem cc_forgetCategoryCache (s : OptState) (c : CategoryName)
    (h : CacheConsistent s) : CacheConsistent (forgetCategoryCache s c) := by
  unfold forgetCategoryCache
  split
  · intro c' fd' hfd' hm'
    simp only [] at hfd' hm'
    by_cases hcc : c' = c
    · subst hcc
      rw [cacheGet_del_self] at hfd'
      exact absurd hfd' (by simp)
    · rw [cacheGet_del_ne s.cache c c' hcc] at hfd'
      refine h c' fd' hfd' ?_
      intro hcontra
      exact hm' ((mem_modDel_iff s.modified c c').mpr ⟨hcontra, hcc⟩)
  · exact h

theorem cc_forgetList (cats : List CategoryName) (s : OptState)
    (h : CacheConsistent s) : CacheConsistent (forgetList s cats) := by
  induction cats generalizing s with
  | nil => exact h
  | cons c rest ih =>
      exact ih (forgetCategoryCache s c) (cc_forgetCategoryCache s c h)

theorem cc_mutBase (s0 : OptState) (item : DefinitionParam) (v : SVal)
    (fd : FormData) (h : CacheConsistent s0) :
    CacheConsistent (mutBase s0 item v fd) := by
  intro c' fd' hfd' hm'
  unfold mutBase at hfd' hm'
  simp only [] at hfd' hm'
  by_cases hcc : c' = item.category
  · subst hcc
    exact absurd (mem_modAdd_self s0.modified item.category) hm'
  · rw [cacheGet_set_ne s0.cache item.category c' _ hcc] at hfd'
    refine h c' fd' hfd' ?_
    intro hcontra
    exact hm' ((mem_modAdd_iff s0.modified item.category c').mpr
      (Or.inl hcontra))

theorem cc_setValue (s : OptState) (item : DefinitionParam) (v : SVal)
    (h : CacheConsistent s) : CacheConsistent (setValue s item v) := by
  rcases hq : findSetting (getCategory s item.category).1
      item.subCategory item.setting with _ | fld
  · rw [setValue_eq_absent s item v hq]
    exact cc_getCategory s item.category h
  · by_cases hsame : fld.value = v
    · rw [setValue_eq_same s item v fld hq hsame]
      exact cc_getCategory s item.category h
    · rcases hdeps : item.dependents with _ | deps
      · rw [setValue_eq_diff_leaf s item v fld hdeps hq hsame]
        exact cc_mutBase _ item v _ (cc_getCategory s item.category h)
      · rw [setValue_eq_diff_deps s item v fld deps hdeps hq hsame]
        exact cc_forgetList _ _
          (cc_writeBackCategory _ _
            (cc_mutBase _ item v _
              (cc_flushList _ _ (cc_getCategory s item.category h))))

theorem cc_setValueRestore (s : OptState) (item : DefinitionParam)
    (v0 : Option SVal) (h : CacheConsistent s) :
    CacheConsistent (setValueRestore s item v0) := by
  cases v0 with
  | some v => exact cc_setValue s item v h
  | none => exact cc_getCategory s item.category h

/-- From a consistent, fully flushed state, every address is settled at its
store value. -/
theorem cleanState_settled (s : OptState) (hcc : CacheConsistent s)
    (hm : s.modified = []) (a : Addr) :
    Settled s a (fieldValue s.store a) := by
  unfold Settled
  rcases hq : cacheGet s.cache a.1 with _ | fd
  · rfl
  · have := hcc a.1 fd hq (by rw [hm]; simp)
    constructor
    · unfold fieldValue
      rw [this]
    · exact Or.inr rfl

theorem foldlUpdate_cache (L : List CategoryName) (s : OptState) :
    (L.foldl updateCategory s).cache = s.cache := by
  induction L generalizing s with
  | nil => rfl
  | cons c rest ih =>
      rw [show (c :: rest).foldl updateCategory s =
        rest.foldl updateCategory (updateCategory s c) from rfl]
      rw [ih, updateCategory_cache]

theorem foldlUpdate_store_get_none (L : List CategoryName) (s : OptState)
    (c : CategoryName) (h : cacheGet s.cache c = none) :
    (L.foldl updateCategory s).store.get c = s.store.get c := by
  induction L generalizing s with
  | nil => rfl
  | cons c0 rest ih =>
      rw [show (c0 :: rest).foldl updateCategory s =
        rest.foldl updateCategory (updateCategory s c0) from rfl]
      have hcache : cacheGet (updateCategory s c0).cache c = none := by
        rw [updateCategory_cache]
        exact h
      rw [ih (updateCategory s c0) hcache, updateCategory_store_get]
      by_cases hcc : c = c0
      · rw [if_pos hcc]
        rcases hq : cacheGet s.cache c0 with _ | fd
        · rfl
        · rw [hcc] at h
          rw [h] at hq
          exact absurd hq (by simp)
      · rw [if_neg hcc]

theorem foldlUpdate_store_get_skip (L : List CategoryName) (s : OptState)
    (c : CategoryName) (h : c ∉ L) :
    (L.foldl updateCategory s).store.get c = s.store.get c := by
  induction L generalizing s with
  | nil => rfl
  | cons c0 rest ih =>
      rw [show (c0 :: rest).foldl updateCategory s =
        rest.foldl updateCategory (updateCategory s c0) from rfl]
      have hc : c ∉ rest := fun hh => h (by simp [hh])
      have hcc : c ≠ c0 := fun hh => h (by simp [hh])
      rw [ih (updateCategory s c0) hc, updateCategory_store_get, if_neg hcc]

theorem foldlUpdate_store_get_cached (L : List CategoryName) (s : OptState)
    (c : CategoryName) (fd : FormData)
    (hfd : cacheGet s.cache c = some fd) (hmem : c ∈ L) :
    (L.foldl updateCategory s).store.get c = fd := by
  induction L generalizing s with
  | nil => simp at hmem
  | cons c0 rest ih =>
      rw [show (c0 :: rest).foldl updateCategory s =
        rest.foldl updateCategory (updateCategory s c0) from rfl]
      by_cases hr : c ∈ rest
      · refine ih (updateCategory s c0) ?_ hr
        rw [updateCategory_cache]
        exact hfd
      · have hcc : c = c0 := by
          rcases List.mem_cons.mp hmem with h | h
          · exact h
          · exact absurd h hr
        have hcache : cacheGet (updateCategory s c0).cache c = some fd := by
          rw [updateCategory_cache]
          exact hfd
        rw [foldlUpdate_store_get_skip rest (updateCategory s c0) c hr,
            updateCategory_store_get, if_pos hcc, ← hcc, hfd]

theorem writeBackAll_modified (s : OptState) :
    (writeBackAllCategories s).modified = [] := rfl

theorem writeBackAll_cache (s : OptState) :
    (writeBackAllCategories s).cache = s.cache :=
  foldlUpdate_cache s.modified s

theorem settled_writeBackAll_store (s : OptState) (a : Addr) (v : Option SVal)
    (h : Settled s a v) :
    fieldValue (writeBackAllCategories s).store a = v := by
  have hst : (writeBackAllCategories s).store =
      (s.modified.foldl updateCategory s).store := rfl
  unfold Settled at h
  rcases hq : cacheGet s.cache a.1 with _ | fd
  · rw [hq] at h
    unfold fieldValue
    rw [hst, foldlUpdate_store_get_none s.modified s a.1 hq]
    exact h
  · rw [hq] at h
    by_cases hm : a.1 ∈ s.modified
    · unfold fieldValue
      rw [hst, foldlUpdate_store_get_cached s.modified s a.1 fd hq hm]
      exact h.1
    · rcases h.2 with h2 | h2
      · exact absurd h2 hm
      · unfold fieldValue
        rw [hst, foldlUpdate_store_get_skip s.modified s a.1 hm]
        exact h2

theorem cc_writeBackAll (s : OptState) (h : CacheConsistent s) :
    CacheConsistent (writeBackAllCategories s) := by
  intro c fd hfd _
  have hc : cacheGet s.cache c = some fd := by
    rw [← writeBackAll_cache]
    exact hfd
  have hst : (writeBackAllCategories s).store =
      (s.modified.foldl updateCategory s).store := rfl
  by_cases hm : c ∈ s.modified
  · rw [hst, foldlUpdate_store_get_cached s.modified s c fd hc hm]
  · rw [hst, foldlUpdate_store_get_skip s.modified s c hm]
    exact h c fd hc hm

mutual
theorem writtenAddrs_subset (values : OptimizeSettings)
    (defs : List DefinitionParam) (a : Addr)
    (h : a ∈ writtenAddrs values defs) :
    a ∈ (iterateDefinitions defs).map DefinitionParam.addr := by
  match defs with
  | [] => exact absurd h (by simp [writtenAddrs])
  | i :: rest =>
      rw [show iterateDefinitions (i :: rest) =
        iterItem i ++ iterateDefinitions rest from rfl]
      rw [show writtenAddrs values (i :: rest) =
        writtenItem values i ++ writtenAddrs values rest from rfl] at h
      rw [List.map_append]
      rcases List.mem_append.mp h with h | h
      · exact List.mem_append.mpr (Or.inl (writtenItem_subset values i a h))
      · exact List.mem_append.mpr (Or.inr (writtenAddrs_subset values rest a h))

theorem writtenItem_subset (values : OptimizeSettings) (i : DefinitionParam)
    (a : Addr) (h : a ∈ writtenItem values i) :
    a ∈ (iterItem i).map DefinitionParam.addr := by
  match i with
  | .mk k c sub st l b none =>
      rw [writtenItem] at h
      split at h
      · simp at h
        subst h
        exact List.mem_map.mpr
          ⟨.mk k c sub st l b none, by simp [iterItem], rfl⟩
      · simp at h
  | .mk k c sub st l b (some deps) =>
      rw [writtenItem] at h
      rcases List.mem_cons.mp h with rfl | h
      · exact List.mem_map.mpr
          ⟨.mk k c sub st l b (some deps), by simp [iterItem], rfl⟩
      · rw [show iterItem (.mk k c sub st l b (some deps)) =
          .mk k c sub st l b (some deps) :: iterDeps deps from rfl]
        rw [List.map_cons]
        exact List.mem_cons_of_mem _ (writtenDeps_subset values deps a h)

theorem writtenDeps_subset (values : OptimizeSettings)
    (deps : List (SVal × List DefinitionParam)) (a : Addr)
    (h : a ∈ writtenDeps values deps) :
    a ∈ (iterDeps deps).map DefinitionParam.addr := by
  match deps with
  | [] => exact absurd h (by simp [writtenDeps])
  | (dv, ps) :: rest =>
      rw [writtenDeps] at h
      rw [show iterDeps ((dv, ps) :: rest) =
        iterateDefinitions ps ++ iterDeps rest from rfl]
      rw [List.map_append]
      rcases List.mem_append.mp h with h | h
      · split at h
        · exact List.mem_append.mpr
            (Or.inl (writtenAddrs_subset values ps a h))
        · simp at h
      · exact List.mem_append.mpr (Or.inr (writtenDeps_subset values rest a h))
end

mutual
/-- A key named by the target anywhere inside a subtree makes the subtree
touched. -/
theorem named_isDepend (values : OptimizeSettings)
    (defs : List DefinitionParam) (d : DefinitionParam)
    (hmem : d ∈ iterateDefinitions defs)
    (hnamed : (values d.key).isSome = true) :
    isDependValues values defs = true := by
  match defs with
  | [] => exact absurd hmem (by simp [iterateDefinitions])
  | i :: rest =>
      have hmem2 : d ∈ iterItem i ++ iterateDefinitions rest := hmem
      show (isDependItem values i || isDependValues values rest) = true
      rcases List.mem_append.mp hmem2 with h | h
      · rw [named_isDependItem values i d h hnamed]
        rfl
      · rw [named_isDepend values rest d h hnamed]
        simp

theorem named_isDependItem (values : OptimizeSettings) (i : DefinitionParam)
    (d : DefinitionParam) (hmem : d ∈ iterItem i)
    (hnamed : (values d.key).isSome = true) :
    isDependItem values i = true := by
  match i with
  | .mk k c sub st l b none =>
      have hd : d = .mk k c sub st l b none := by
        have hmem2 : d ∈ [DefinitionParam.mk k c sub st l b none] := hmem
        simpa using hmem2
      subst hd
      show ((values k).isSome || false) = true
      have h2 : (values k).isSome = true := hnamed
      rw [h2]
      rfl
  | .mk k c sub st l b (some ds) =>
      have hmem2 : d ∈ DefinitionParam.mk k c sub st l b (some ds) ::
        iterDeps ds := hmem
      show ((values k).isSome || isDependDeps values ds) = true
      rcases List.mem_cons.mp hmem2 with rfl | h
      · have h2 : (values k).isSome = true := hnamed
        rw [h2]
        rfl
      · rw [named_isDependDeps values ds d h hnamed]
        simp

theorem named_isDependDeps (values : OptimizeSettings)
    (deps : List (SVal × List DefinitionParam)) (d : DefinitionParam)
    (hmem : d ∈ iterDeps deps)
    (hnamed : (values d.key).isSome = true) :
    isDependDeps values deps = true := by
  match deps with
  | [] => exact absurd hmem (by simp [iterDeps])
  | (dv, ps) :: rest =>
      have hmem2 : d ∈ iterateDefinitions ps ++ iterDeps rest := hmem
      show (isDependValues values ps || isDependDeps values rest) = true
      rcases List.mem_append.mp hmem2 with h | h
      · rw [named_isDepend values ps d h hnamed]
        rfl
      · rw [named_isDependDeps values rest d h hnamed]
        simp
end

mutual
/-- Frame property of the value writer: an address outside the written set
keeps its settled value. -/
theorem writer_frame (s : OptState) (values : OptimizeSettings)
    (defs : List DefinitionParam) (a : Addr) (v : Option SVal)
    (ha : a ∉ writtenAddrs values defs) (h : Settled s a v) :
    Settled (setValues s values defs) a v := by
  match defs with
  | [] => exact h
  | i :: rest =>
      rw [show setValues s values (i :: rest) =
        setValues (setValuesItem s values i) values rest from rfl]
      have ha2 : a ∉ writtenItem values i ++ writtenAddrs values rest := ha
      refine writer_frame _ values rest a v
        (fun hh => ha2 (List.mem_append.mpr (Or.inr hh))) ?_
      exact writerItem_frame s values i a v
        (fun hh => ha2 (List.mem_append.mpr (Or.inl hh))) h

theorem writerItem_frame (s : OptState) (values : OptimizeSettings)
    (i : DefinitionParam) (a : Addr) (v : Option SVal)
    (ha : a ∉ writtenItem values i) (h : Settled s a v) :
    Settled (setValuesItem s values i) a v := by
  match i with
  | .mk k c sub st l b none =>
      rw [setValuesItem]
      rw [writtenItem] at ha
      rcases hv : values k with _ | v'
      · exact h
      · have hne : a ≠ (DefinitionParam.mk k c sub st l b none).addr := by
          intro hcontra
          refine ha ?_
          rw [if_pos (by rw [hv]; rfl)]
          simpa [DefinitionParam.addr] using hcontra
        exact settled_setValue_ne s _ v' a v hne h
  | .mk k c sub st l b (some deps) =>
      rw [setValuesItem]
      rw [writtenItem] at ha
      have hne : a ≠ (DefinitionParam.mk k c sub st l b (some deps)).addr := by
        intro hcontra
        refine ha ?_
        rw [hcontra]
        exact List.mem_cons_self _ _
      have hdeps : a ∉ writtenDeps values deps := by
        intro hcontra
        exact ha (List.mem_cons_of_mem _ hcontra)
      have h1 : Settled (findValue s
          (.mk k c sub st l b (some deps))).2 a v :=
        settled_getCategory s _ a v h
      have h2 := writerDeps_frame _ values
        (.mk k c sub st l b (some deps)) deps a v hdeps hne h1
      rcases hv : values k with _ | v'
      · exact settled_setValueRestore _ _ _ a v hne h2
      · exact settled_setValue_ne _ _ v' a v hne h2

theorem writerDeps_frame (s : OptState) (values : OptimizeSettings)
    (item : DefinitionParam) (deps : List (SVal × List DefinitionParam))
    (a : Addr) (v : Option SVal)
    (ha : a ∉ writtenDeps values deps) (hne : a ≠ item.addr)
    (h : Settled s a v) :
    Settled (setValuesDeps s values item deps) a v := by
  match deps with
  | [] => exact h
  | (dv, ps) :: rest =>
      rw [show setValuesDeps s values item ((dv, ps) :: rest) =
        setValuesDeps
          (if isDependValues values ps then
            setValues (setValue s item dv) values ps
          else s) values item rest from rfl]
      have ha2 : a ∉
          (if isDependValues values ps then writtenAddrs values ps else []) ++
            writtenDeps values rest := ha
      refine writerDeps_frame _ values item rest a v
        (fun hh => ha2 (List.mem_append.mpr (Or.inr hh))) hne ?_
      by_cases htouch : isDependValues values ps
      · rw [if_pos htouch]
        have hps : a ∉ writtenAddrs values ps := by
          intro hcontra
          exact ha2 (List.mem_append.mpr
            (Or.inl (by rw [if_pos htouch]; exact hcontra)))
        exact writer_frame _ values ps a v hps
          (settled_setValue_ne s item dv a v hne h)
      · rw [if_neg htouch]
        exact h
end

mutual
theorem cc_setValues (s : OptState) (values : OptimizeSettings)
    (defs : List DefinitionParam) (h : CacheConsistent s) :
    CacheConsistent (setValues s values defs) := by
  match defs with
  | [] => exact h
  | item :: rest =>
      rw [show setValues s values (item :: rest) =
        setValues (setValuesItem s values item) values rest from rfl]
      exact cc_setValues _ values rest (cc_setValuesItem s values item h)

theorem cc_setValuesItem (s : OptState) (values : OptimizeSettings)
    (item : DefinitionParam) (h : CacheConsistent s) :
    CacheConsistent (setValuesItem s values item) := by
  match item with
  | .mk k c sub st l b none =>
      rw [setValuesItem]
      rcases values k with _ | v
      · exact h
      · exact cc_setValue _ _ _ h
  | .mk k c sub st l b (some deps) =>
      rw [setValuesItem]
      have h2 : CacheConsistent (setValuesDeps
          (findValue s (.mk k c sub st l b (some deps))).2 values
          (.mk k c sub st l b (some deps)) deps) :=
        cc_setValuesDeps _ values _ deps (cc_getCategory s _ h)
      rcases values k with _ | v
      · exact cc_setValueRestore _ _ _ h2
      · exact cc_setValue _ _ _ h2

theorem cc_setValuesDeps (s : OptState) (values : OptimizeSettings)
    (item : DefinitionParam) (deps : List (SVal × List DefinitionParam))
    (h : CacheConsistent s) :
    CacheConsistent (setValuesDeps s values item deps) := by
  match deps with
  | [] => exact h
  | (dv, ps) :: rest =>
      rw [setValuesDeps]
      refine cc_setValuesDeps _ values item rest ?_
      by_cases hdep : isDependValues values ps
      · rw [if_pos hdep]
        exact cc_setValues _ values ps (cc_setValue s item dv h)
      · rw [if_neg hdep]
        exact h
end

/-- Pivoting in and out of branches keeps the parent field's presence (and
absence) intact. -/
theorem writerDeps_presence (values : OptimizeSettings)
    (item : DefinitionParam) (deps : List (SVal × List DefinitionParam))
    (s : OptState)
    (hd : item.addr ∉ (iterDeps deps).map DefinitionParam.addr) :
    (Settled s item.addr none →
      Settled (setValuesDeps s values item deps) item.addr none) ∧
    (∀ w, Settled s item.addr (some w) →
      ∃ w', Settled (setValuesDeps s values item deps) item.addr (some w')) := by
  induction deps generalizing s with
  | nil => exact ⟨fun h => h, fun w h => ⟨w, h⟩⟩
  | cons dps rest ih =>
      obtain ⟨dv, ps⟩ := dps
      have hstep : ∀ s', setValuesDeps s' values item ((dv, ps) :: rest) =
          setValuesDeps
            (if isDependValues values ps then
              setValues (setValue s' item dv) values ps
            else s') values item rest := fun s' => rfl
      have hdrest : item.addr ∉ (iterDeps rest).map DefinitionParam.addr := by
        intro hcontra
        refine hd ?_
        rw [show iterDeps ((dv, ps) :: rest) =
          iterateDefinitions ps ++ iterDeps rest from rfl, List.map_append]
        exact List.mem_append.mpr (Or.inr hcontra)
      have hdps : item.addr ∉ writtenAddrs values ps := by
        intro hcontra
        refine hd ?_
        rw [show iterDeps ((dv, ps) :: rest) =
          iterateDefinitions ps ++ iterDeps rest from rfl, List.map_append]
        exact List.mem_append.mpr
          (Or.inl (writtenAddrs_subset values ps item.addr hcontra))
      constructor
      · intro h
        rw [hstep s]
        refine (ih _ hdrest).1 ?_
        by_cases htouch : isDependValues values ps
        · rw [if_pos htouch]
          refine writer_frame _ values ps item.addr none hdps ?_
          exact settled_setValue_absent s item dv h item.addr none h
        · rw [if_neg htouch]
          exact h
      · intro w h
        rw [hstep s]
        by_cases htouch : isDependValues values ps
        · refine (ih _ hdrest).2 dv ?_
          rw [if_pos htouch]
          refine writer_frame _ values ps item.addr (some dv) hdps ?_
          exact settled_setValue_self s item dv w h
        · refine (ih _ hdrest).2 w ?_
          rw [if_neg htouch]
          exact h

theorem addr_mem_of_mem (d : DefinitionParam) (L : List DefinitionParam)
    (h : d ∈ L) : d.addr ∈ L.map DefinitionParam.addr :=
  List.mem_map.mpr ⟨d, h, rfl⟩

mutual
/-- The value writer settles every named field (whose address is unique in
the tree and whose field exists) at its target value. -/
theorem writer_sets (s : OptState) (values : OptimizeSettings)
    (defs : List DefinitionParam) (d : DefinitionParam) (v : SVal)
    (hnodup : ((iterateDefinitions defs).map DefinitionParam.addr).Nodup)
    (hmem : d ∈ iterateDefinitions defs)
    (hv : values d.key = some v)
    (hw : ∃ w, Settled s d.addr (some w)) :
    Settled (setValues s values defs) d.addr (some v) := by
  match defs with
  | [] => exact absurd hmem (by simp [iterateDefinitions])
  | i :: rest =>
      rw [show setValues s values (i :: rest) =
        setValues (setValuesItem s values i) values rest from rfl]
      have hiter : iterateDefinitions (i :: rest) =
        iterItem i ++ iterateDefinitions rest := rfl
      rw [hiter, List.map_append] at hnodup
      rw [List.nodup_append] at hnodup
      obtain ⟨hn1, hn2, hdisj⟩ := hnodup
      rw [hiter] at hmem
      rcases List.mem_append.mp hmem with hm | hm
      · have hmid := writerItem_sets s values i d v hn1 hm hv hw
        refine writer_frame _ values rest d.addr (some v) ?_ hmid
        intro hcontra
        exact hdisj (addr_mem_of_mem d _ hm)
          (writtenAddrs_subset values rest d.addr hcontra)
      · have hpres : ∃ w, Settled (setValuesItem s values i) d.addr (some w) := by
          obtain ⟨w, hw2⟩ := hw
          refine ⟨w, writerItem_frame s values i d.addr (some w) ?_ hw2⟩
          intro hcontra
          exact hdisj (writtenItem_subset values i d.addr hcontra)
            (addr_mem_of_mem d _ hm)
        exact writer_sets _ values rest d v hn2 hm hv hpres

theorem writerItem_sets (s : OptState) (values : OptimizeSettings)
    (i : DefinitionParam) (d : DefinitionParam) (v : SVal)
    (hnodup : ((iterItem i).map DefinitionParam.addr).Nodup)
    (hmem : d ∈ iterItem i)
    (hv : values d.key = some v)
    (hw : ∃ w, Settled s d.addr (some w)) :
    Settled (setValuesItem s values i) d.addr (some v) := by
  match i with
  | .mk k c sub st l b none =>
      have hd : d = .mk k c sub st l b none := by
        have hmem2 : d ∈ [DefinitionParam.mk k c sub st l b none] := hmem
        simpa using hmem2
      subst hd
      rw [setValuesItem]
      have hv2 : values k = some v := hv
      rw [hv2]
      obtain ⟨w, hw2⟩ := hw
      exact settled_setValue_self s _ v w hw2
  | .mk k c sub st l b (some deps) =>
      have hiter : iterItem (.mk k c sub st l b (some deps)) =
        .mk k c sub st l b (some deps) :: iterDeps deps := rfl
      rw [hiter, List.map_cons, List.nodup_cons] at hnodup
      obtain ⟨hhead, htail⟩ := hnodup
      rw [setValuesItem]
      rw [hiter] at hmem
      rcases List.mem_cons.mp hmem with rfl | hm
      · -- the branching node itself is named
        have hv2 : values k = some v := hv
        rw [hv2]
        obtain ⟨w, hw2⟩ := hw
        have hw3 : Settled (findValue s
            (.mk k c sub st l b (some deps))).2
            (DefinitionParam.mk k c sub st l b (some deps)).addr (some w) :=
          settled_getCategory s _ _ _ hw2
        obtain ⟨w', hw4⟩ := (writerDeps_presence values _ deps _ hhead).2 w hw3
        exact settled_setValue_self _ _ v w' hw4
      · -- a descendant inside one of the branches is named
        have hs1 : ∃ w, Settled (findValue s
            (.mk k c sub st l b (some deps))).2 d.addr (some w) := by
          obtain ⟨w, hw2⟩ := hw
          exact ⟨w, settled_getCategory s _ _ _ hw2⟩
        have hne : d.addr ≠ (DefinitionParam.mk k c sub st l b (some deps)).addr := by
          intro hcontra
          exact hhead (hcontra ▸ addr_mem_of_mem d _ hm)
        have hmid := writerDeps_sets _ values _ deps d v hhead htail hm hv hs1
        rcases hvk : values k with _ | v''
        · exact settled_setValueRestore _ _ _ d.addr (some v) hne hmid
        · exact settled_setValue_ne _ _ v'' d.addr (some v) hne hmid

theorem writerDeps_sets (s : OptState) (values : OptimizeSettings)
    (item : DefinitionParam) (deps : List (SVal × List DefinitionParam))
    (d : DefinitionParam) (v : SVal)
    (hitem : item.addr ∉ (iterDeps deps).map DefinitionParam.addr)
    (hnodup : ((iterDeps deps).map DefinitionParam.addr).Nodup)
    (hmem : d ∈ iterDeps deps)
    (hv : values d.key = some v)
    (hw : ∃ w, Settled s d.addr (some w)) :
    Settled (setValuesDeps s values item deps) d.addr (some v) := by
  match deps with
  | [] => exact absurd hmem (by simp [iterDeps])
  | (dv, ps) :: rest =>
      have hiter : iterDeps ((dv, ps) :: rest) =
        iterateDefinitions ps ++ iterDeps rest := rfl
      rw [show setValuesDeps s values item ((dv, ps) :: rest) =
        setValuesDeps
          (if isDependValues values ps then
            setValues (setValue s item dv) values ps
          else s) values item rest from rfl]
      rw [hiter, List.map_append, List.nodup_append] at hnodup
      obtain ⟨hn1, hn2, hdisj⟩ := hnodup
      rw [hiter, List.map_append] at hitem
      have hitem1 : item.addr ∉ (iterateDefinitions ps).map DefinitionParam.addr :=
        fun hh => hitem (List.mem_append.mpr (Or.inl hh))
      have hitem2 : item.addr ∉ (iterDeps rest).map DefinitionParam.addr :=
        fun hh => hitem (List.mem_append.mpr (Or.inr hh))
      rw [hiter] at hmem
      rcases List.mem_append.mp hmem with hm | hm
      · have hdne : d.addr ≠ item.addr := by
          intro hcontra
          exact hitem1 (hcontra ▸ addr_mem_of_mem d _ hm)
        have htouch : isDependValues values ps = true :=
          named_isDepend values ps d hm (by rw [hv]; rfl)
        rw [if_pos htouch]
        have hs1 : ∃ w, Settled (setValue s item dv) d.addr (some w) := by
          obtain ⟨w, hw2⟩ := hw
          exact ⟨w, settled_setValue_ne s item dv d.addr (some w) hdne hw2⟩
        have hmid := writer_sets _ values ps d v hn1 hm hv hs1
        refine writerDeps_frame _ values item rest d.addr (some v) ?_ hdne hmid
        intro hcontra
        exact hdisj (addr_mem_of_mem d _ hm)
          (writtenDeps_subset values rest d.addr hcontra)
      · have hdne : d.addr ≠ item.addr := by
          intro hcontra
          exact hitem2 (hcontra ▸ addr_mem_of_mem d _ hm)
        have hpres : ∃ w, Settled
            (if isDependValues values ps then
              setValues (setValue s item dv) values ps
            else s) d.addr (some w) := by
          obtain ⟨w, hw2⟩ := hw
          by_cases htouch : isDependValues values ps
          · rw [if_pos htouch]
            refine ⟨w, writer_frame _ values ps d.addr (some w) ?_
              (settled_setValue_ne s item dv d.addr (some w) hdne hw2)⟩
            intro hcontra
            exact hdisj (writtenAddrs_subset values ps d.addr hcontra)
              (addr_mem_of_mem d _ hm)
          · rw [if_neg htouch]
            exact ⟨w, hw2⟩
        exact writerDeps_sets _ values item rest d v hitem2 hn2 hm hv hpres
end

theorem setValue_modified_subset (s : OptState) (item : DefinitionParam)
    (v : SVal) (deps0 : List (SVal × List DefinitionParam))
    (hdeps : item.dependents = some deps0) (c : CategoryName)
    (h : c ∈ (setValue s item v).modified) : c ∈ s.modified := by
  rcases hq : findSetting (getCategory s item.category).1
      item.subCategory item.setting with _ | fld
  · rw [setValue_eq_absent s item v hq] at h
    rw [getCategory_modified] at h
    exact h
  · by_cases hsame : fld.value = v
    · rw [setValue_eq_same s item v fld hq hsame] at h
      rw [getCategory_modified] at h
      exact h
    · rw [setValue_eq_diff_deps s item v fld deps0 hdeps hq hsame] at h
      have h1 := forgetList_modified_subset _ _ _ h
      rw [writeBackCategory_mem_modified] at h1
      obtain ⟨h2, h3⟩ := h1
      have h4 : c ∈ modAdd (flushList (getCategory s item.category).2
          (depCats deps0)).modified item.category := h2
      rw [mem_modAdd_iff] at h4
      rcases h4 with h4 | h4
      · rw [flushList_mem_modified] at h4
        have h5 : c ∈ ((getCategory s item.category).2).modified := h4.1
        rw [getCategory_modified] at h5
        exact h5
      · exact absurd h4 h3

theorem map_pair_congr (L : List DefinitionParam)
    (V1 V2 : Addr → Option SVal)
    (h : ∀ d ∈ L, V1 d.addr = V2 d.addr) :
    L.map (fun d => (d.key, V1 d.addr)) =
      L.map (fun d => (d.key, V2 d.addr)) := by
  induction L with
  | nil => rfl
  | cons d rest ih =>
      simp only [List.map_cons]
      rw [h d (by simp), ih (fun d' hd' => h d' (by simp [hd']))]

mutual
/-- The value reader yields one pair per flattened node carrying the settled
value of that node's address, leaves every settled value as it found it
(each pivot is restored once the node's branches are exhausted), and never
leaves new dirty categories behind. -/
theorem reader_list (s : OptState) (defs : List DefinitionParam)
    (V : Addr → Option SVal)
    (hS : ∀ a, Settled s a (V a))
    (hnodup : ((iterateDefinitions defs).map DefinitionParam.addr).Nodup) :
    (getValuesList s defs).1 =
      (iterateDefinitions defs).map (fun d => (d.key, V d.addr)) ∧
    (∀ a, Settled (getValuesList s defs).2 a (V a)) ∧
    (∀ c, c ∈ ((getValuesList s defs).2).modified → c ∈ s.modified) := by
  match defs with
  | [] => exact ⟨rfl, hS, fun c hc => hc⟩
  | i :: rest =>
      have hred1 : (getValuesList s (i :: rest)).1 =
        (getValuesItem s i).1 ++
          (getValuesList (getValuesItem s i).2 rest).1 := rfl
      have hred2 : (getValuesList s (i :: rest)).2 =
        (getValuesList (getValuesItem s i).2 rest).2 := rfl
      have hiter : iterateDefinitions (i :: rest) =
        iterItem i ++ iterateDefinitions rest := rfl
      rw [hiter, List.map_append] at hnodup ⊢
      rw [List.nodup_append] at hnodup
      obtain ⟨hn1, hn2, _⟩ := hnodup
      obtain ⟨hp1, hs1, hm1⟩ := reader_item s i V hS hn1
      obtain ⟨hp2, hs2, hm2⟩ :=
        reader_list (getValuesItem s i).2 rest V hs1 hn2
      refine ⟨?_, ?_, ?_⟩
      · rw [hred1, hp1, hp2]
      · rw [hred2]
        exact hs2
      · intro c hc
        rw [hred2] at hc
        exact hm1 c (hm2 c hc)

theorem reader_item (s : OptState) (i : DefinitionParam)
    (V : Addr → Option SVal)
    (hS : ∀ a, Settled s a (V a))
    (hnodup : ((iterItem i).map DefinitionParam.addr).Nodup) :
    (getValuesItem s i).1 =
      (iterItem i).map (fun d => (d.key, V d.addr)) ∧
    (∀ a, Settled (getValuesItem s i).2 a (V a)) ∧
    (∀ c, c ∈ ((getValuesItem s i).2).modified → c ∈ s.modified) := by
  match i with
  | .mk k c sub st l b none =>
      have hv0 : (findValue s (.mk k c sub st l b none)).1 =
          V (DefinitionParam.mk k c sub st l b none).addr :=
        settled_findValue s _ _ (hS _)
      refine ⟨?_, ?_, ?_⟩
      · show [(k, (findValue s (.mk k c sub st l b none)).1)] = _
        rw [hv0]
        rfl
      · show ∀ a, Settled (findValue s (.mk k c sub st l b none)).2 a (V a)
        intro a
        exact settled_getCategory s _ a (V a) (hS a)
      · intro c' hc'
        have : c' ∈ ((findValue s (.mk k c sub st l b none)).2).modified := hc'
        rw [show ((findValue s (.mk k c sub st l b none)).2).modified =
          s.modified from getCategory_modified s _] at this
        exact this
  | .mk k c sub st l b (some deps) =>
      set item := DefinitionParam.mk k c sub st l b (some deps) with hitemdef
      have hiter : iterItem item = item :: iterDeps deps := rfl
      rw [hiter, List.map_cons, List.nodup_cons] at hnodup
      obtain ⟨hhead, htail⟩ := hnodup
      have hv0 : (findValue s item).1 = V item.addr :=
        settled_findValue s _ _ (hS _)
      have hs1 : ∀ a, Settled (findValue s item).2 a (V a) :=
        fun a => settled_getCategory s _ a (V a) (hS a)
      obtain ⟨hpd, ⟨Vend, hVend, hVne, hVsome, hVnone⟩, hmd⟩ :=
        reader_deps (findValue s item).2 item deps V hs1
          (by rw [hitemdef]; rfl) hhead htail
      have hred1 : (getValuesItem s item).1 =
        (k, (findValue s item).1) :: (getValuesDeps (findValue s item).2
          item deps).1 := rfl
      have hred2 : (getValuesItem s item).2 =
        setValueRestore (getValuesDeps (findValue s item).2 item deps).2
          item (findValue s item).1 := rfl
      refine ⟨?_, ?_, ?_⟩
      · rw [hred1, hv0, hpd, hiter]
        rfl
      · intro a
        rw [hred2]
        rcases hv : (findValue s item).1 with _ | w
        · -- the field is absent: the restore is a bare cache lookup
          have hVaddr : V item.addr = none := by
            rw [← hv0, hv]
          have hrestore : setValueRestore (getValuesDeps (findValue s item).2
              item deps).2 item none =
            (getCategory (getValuesDeps (findValue s item).2 item deps).2
              item.category).2 := rfl
          rw [hrestore]
          by_cases hac : a = item.addr
          · subst hac
            rw [hVaddr]
            have h2 : Settled (getValuesDeps (findValue s item).2
                item deps).2 item.addr none := by
              rw [← hVnone hVaddr]
              exact hVend item.addr
            exact settled_getCategory _ _ _ none h2
          · have h2 : Settled (getValuesDeps (findValue s item).2
                item deps).2 a (V a) := by
              rw [← hVne a hac]
              exact hVend a
            exact settled_getCategory _ _ a (V a) h2
        · -- the field exists: the restore writes the saved value back
          have hVaddr : V item.addr = some w := by
            rw [← hv0, hv]
          have hrestore : setValueRestore (getValuesDeps (findValue s item).2
              item deps).2 item (some w) =
            setValue (getValuesDeps (findValue s item).2 item deps).2
              item w := rfl
          rw [hrestore]
          by_cases hac : a = item.addr
          · subst hac
            rw [hVaddr]
            have hsome : (Vend item.addr).isSome = true := hVsome (by
              rw [hVaddr]; rfl)
            obtain ⟨w', hw'⟩ := Option.isSome_iff_exists.mp hsome
            have h2 : Settled (getValuesDeps (findValue s item).2
                item deps).2 item.addr (some w') := by
              rw [← hw']
              exact hVend item.addr
            exact settled_setValue_self _ item w w' h2
          · have h2 : Settled (getValuesDeps (findValue s item).2
                item deps).2 a (V a) := by
              rw [← hVne a hac]
              exact hVend a
            exact settled_setValue_ne _ item w a (V a) hac h2
      · intro c' hc'
        rw [hred2] at hc'
        have hstep : c' ∈ ((getValuesDeps (findValue s item).2
            item deps).2).modified := by
          rcases hv : (findValue s item).1 with _ | w
          · rw [hv] at hc'
            have : c' ∈ ((getCategory (getValuesDeps (findValue s item).2
                item deps).2 item.category).2).modified := hc'
            rw [getCategory_modified] at this
            exact this
          · rw [hv] at hc'
            exact setValue_modified_subset _ item w deps rfl c' hc'
        have := hmd c' hstep
        rw [show ((findValue s item).2).modified = s.modified from
          getCategory_modified s _] at this
        exact this

theorem reader_deps (s : OptState) (item : DefinitionParam)
    (deps : List (SVal × List DefinitionParam))
    (V : Addr → Option SVal)
    (hS : ∀ a, Settled s a (V a))
    (hdeps : (item.dependents).isSome = true)
    (hitem : item.addr ∉ (iterDeps deps).map DefinitionParam.addr)
    (hnodup : ((iterDeps deps).map DefinitionParam.addr).Nodup) :
    (getValuesDeps s item deps).1 =
      (iterDeps deps).map (fun d => (d.key, V d.addr)) ∧
    (∃ Vend : Addr → Option SVal,
      (∀ a, Settled (getValuesDeps s item deps).2 a (Vend a)) ∧
      (∀ a, a ≠ item.addr → Vend a = V a) ∧
      ((V item.addr).isSome = true → (Vend item.addr).isSome = true) ∧
      (V item.addr = none → Vend item.addr = none)) ∧
    (∀ c, c ∈ ((getValuesDeps s item deps).2).modified → c ∈ s.modified) := by
  match deps with
  | [] =>
      exact ⟨rfl, ⟨V, hS, fun a _ => rfl, fun h => h, fun h => h⟩,
        fun c hc => hc⟩
  | (dv, ps) :: rest =>
      have hred1 : (getValuesDeps s item ((dv, ps) :: rest)).1 =
        (getValuesList (setValue s item dv) ps).1 ++
          (getValuesDeps (getValuesList (setValue s item dv) ps).2
            item rest).1 := rfl
      have hred2 : (getValuesDeps s item ((dv, ps) :: rest)).2 =
        (getValuesDeps (getValuesList (setValue s item dv) ps).2
          item rest).2 := rfl
      have hiter : iterDeps ((dv, ps) :: rest) =
        iterateDefinitions ps ++ iterDeps rest := rfl
      rw [hiter, List.map_append] at hitem hnodup
      rw [List.nodup_append] at hnodup
      obtain ⟨hn1, hn2, _⟩ := hnodup
      have hitem1 : item.addr ∉
          (iterateDefinitions ps).map DefinitionParam.addr :=
        fun hh => hitem (List.mem_append.mpr (Or.inl hh))
      have hitem2 : item.addr ∉ (iterDeps rest).map DefinitionParam.addr :=
        fun hh => hitem (List.mem_append.mpr (Or.inr hh))
      obtain ⟨V1, hS1, hV1ne, hV1some, hV1none⟩ :
          ∃ V1 : Addr → Option SVal,
            (∀ a, Settled (setValue s item dv) a (V1 a)) ∧
            (∀ a, a ≠ item.addr → V1 a = V a) ∧
            ((V item.addr).isSome = true → (V1 item.addr).isSome = true) ∧
            (V item.addr = none → V1 item.addr = none) := by
        rcases hva : V item.addr with _ | w
        · refine ⟨V, ?_, fun a _ => rfl, ?_, fun _ => hva⟩
          · intro a
            have habs : Settled s item.addr none := by
              rw [← hva]
              exact hS item.addr
            exact settled_setValue_absent s item dv habs a (V a) (hS a)
          · intro hcontra
            simp at hcontra
        · refine ⟨fun a => if a = item.addr then some dv else V a,
            ?_, ?_, ?_, ?_⟩
          · intro a
            dsimp only
            by_cases hac : a = item.addr
            · rw [if_pos hac]
              subst hac
              refine settled_setValue_self s item dv w ?_
              rw [← hva]
              exact hS item.addr
            · rw [if_neg hac]
              exact settled_setValue_ne s item dv a (V a) hac (hS a)
          · intro a hac
            dsimp only
            rw [if_neg hac]
          · intro _
            simp
          · intro hcontra
            exact absurd hcontra (by simp)
      obtain ⟨hp_ps, hs_ps, hm_ps⟩ :=
        reader_list (setValue s item dv) ps V1 hS1 hn1
      obtain ⟨hp_rest, ⟨Vend, hVend, hVne2, hVsome2, hVnone2⟩, hm_rest⟩ :=
        reader_deps (getValuesList (setValue s item dv) ps).2 item rest V1
          hs_ps hdeps hitem2 hn2
      have hcongr1 : (iterateDefinitions ps).map (fun d => (d.key, V1 d.addr))
          = (iterateDefinitions ps).map (fun d => (d.key, V d.addr)) := by
        refine map_pair_congr _ V1 V ?_
        intro d hd
        refine hV1ne d.addr ?_
        intro hcontra
        exact hitem1 (hcontra ▸ addr_mem_of_mem d _ hd)
      have hcongr2 : (iterDeps rest).map (fun d => (d.key, V1 d.addr))
          = (iterDeps rest).map (fun d => (d.key, V d.addr)) := by
        refine map_pair_congr _ V1 V ?_
        intro d hd
        refine hV1ne d.addr ?_
        intro hcontra
        exact hitem2 (hcontra ▸ addr_mem_of_mem d _ hd)
      refine ⟨?_, ⟨Vend, ?_, ?_, ?_, ?_⟩, ?_⟩
      · rw [hred1, hp_ps, hp_rest, hcongr1, hcongr2, hiter, List.map_append]
      · intro a
        rw [hred2]
        exact hVend a
      · intro a hac
        rw [hVne2 a hac]
        exact hV1ne a hac
      · intro hsome
        exact hVsome2 (hV1some hsome)
      · intro hnone
        exact hVnone2 (hV1none hnone)
      · intro c hc
        rw [hred2] at hc
        obtain ⟨deps0, hdeps0⟩ := Option.isSome_iff_exists.mp hdeps
        exact setValue_modified_subset s item dv deps0 hdeps0 c
          (hm_ps c (hm_rest c hc))
end

theorem flatDP : iterateDefinitions definitionParams =
    [dOutputMode, dVideoBitrate, dAudioBitrate, dEncoder, dEncoderPreset,
     dTune, dKeyframeInterval, dProfile, dAudioTrackIndex, dQuality,
     dColorSpace, dFps] := rfl

theorem keyNode_key (k : OptimizationKey) : (keyNode k).key = k := by
  cases k <;> rfl

theorem keyNode_mem (k : OptimizationKey) :
    keyNode k ∈ iterateDefinitions definitionParams := by
  rw [flatDP]
  cases k <;> simp only [keyNode] <;>
    first
      | exact List.Mem.head _
      | exact List.Mem.tail _ (List.Mem.head _)
      | exact List.Mem.tail _ (List.Mem.tail _ (List.Mem.head _))
      | exact List.Mem.tail _ (List.Mem.tail _ (List.Mem.tail _
          (List.Mem.head _)))
      | exact List.Mem.tail _ (List.Mem.tail _ (List.Mem.tail _
          (List.Mem.tail _ (List.Mem.head _))))
      | exact List.Mem.tail _ (List.Mem.tail _ (List.Mem.tail _
          (List.Mem.tail _ (List.Mem.tail _ (List.Mem.head _)))))
      | exact List.Mem.tail _ (List.Mem.tail _ (List.Mem.tail _
          (List.Mem.tail _ (List.Mem.tail _ (List.Mem.tail _
            (List.Mem.head _))))))
      | exact List.Mem.tail _ (List.Mem.tail _ (List.Mem.tail _
          (List.Mem.tail _ (List.Mem.tail _ (List.Mem.tail _
            (List.Mem.tail _ (List.Mem.head _)))))))
      | exact List.Mem.tail _ (List.Mem.tail _ (List.Mem.tail _
          (List.Mem.tail _ (List.Mem.tail _ (List.Mem.tail _
            (List.Mem.tail _ (List.Mem.tail _ (List.Mem.head _))))))))
      | exact List.Mem.tail _ (List.Mem.tail _ (List.Mem.tail _
          (List.Mem.tail _ (List.Mem.tail _ (List.Mem.tail _
            (List.Mem.tail _ (List.Mem.tail _ (List.Mem.tail _
              (List.Mem.head _)))))))))
      | exact List.Mem.tail _ (List.Mem.tail _ (List.Mem.tail _
          (List.Mem.tail _ (List.Mem.tail _ (List.Mem.tail _
            (List.Mem.tail _ (List.Mem.tail _ (List.Mem.tail _
              (List.Mem.tail _ (List.Mem.head _))))))))))
      | exact List.Mem.tail _ (List.Mem.tail _ (List.Mem.tail _
          (List.Mem.tail _ (List.Mem.tail _ (List.Mem.tail _
            (List.Mem.tail _ (List.Mem.tail _ (List.Mem.tail _
              (List.Mem.tail _ (List.Mem.tail _ (List.Mem.head _)))))))))))

theorem nodupAddrsDP :
    ((iterateDefinitions definitionParams).map DefinitionParam.addr).Nodup := by
  rw [flatDP]
  decide

/-- Evaluating the snapshot produced by getCurrentSettings in a clean state:
each key reads its node's store value. -/
theorem currentSnapshot_eval (s : OptState) (hcc : CacheConsistent s)
    (hm : s.modified = []) (k : OptimizationKey) :
    (getCurrentSettings s definitionParams).1 k =
      fieldValue s.store (keyNode k).addr := by
  obtain ⟨hp, _, _⟩ := reader_list s definitionParams
    (fun a => fieldValue s.store a)
    (fun a => cleanState_settled s hcc hm a) nodupAddrsDP
  have hgc : (getCurrentSettings s definitionParams).1 =
    assignPairs (getValuesList s definitionParams).1 := rfl
  rw [hgc, hp]
  cases k <;> rfl

/-- A named, present field ends at its target value in the store after
optimize. -/
theorem optimize_sets_field (s : OptState) (t : OptimizeSettings)
    (hcc : CacheConsistent s) (hm : s.modified = [])
    (d : DefinitionParam)
    (hmem : d ∈ iterateDefinitions definitionParams)
    (hpres : (fieldValue s.store d.addr).isSome = true)
    (v : SVal) (hv : t d.key = some v) :
    fieldValue (optimize s t definitionParams).store d.addr = some v := by
  obtain ⟨w, hw⟩ := Option.isSome_iff_exists.mp hpres
  have hset := writer_sets s t definitionParams d v nodupAddrsDP hmem hv
    ⟨w, by rw [← hw]; exact cleanState_settled s hcc hm d.addr⟩
  exact settled_writeBackAll_store _ _ _ hset

/-- C3: optimize followed by getCurrentSettings round-trips every key named
in the target snapshot, and by the time optimize returns every modified
category has been durably flushed (the dirty set is empty and every cache
entry agrees with the store). -/
theorem claim_C3_roundtrip (s : OptState) (t : OptimizeSettings)
    (hcc : CacheConsistent s) (hm : s.modified = [])
    (hfields : ∀ d ∈ iterateDefinitions definitionParams,
      (fieldValue s.store d.addr).isSome = true) :
    (∀ k, (t k).isSome = true →
      (getCurrentSettings (optimize s t definitionParams)
        definitionParams).1 k = t k) ∧
    (optimize s t definitionParams).modified = [] ∧
    CacheConsistent (optimize s t definitionParams) := by
  have hcc1 : CacheConsistent (setValues s t definitionParams) :=
    cc_setValues s t definitionParams hcc
  have hcc2 : CacheConsistent (optimize s t definitionParams) :=
    cc_writeBackAll _ hcc1
  have hm2 : (optimize s t definitionParams).modified = [] :=
    writeBackAll_modified _
  refine ⟨?_, hm2, hcc2⟩
  intro k hk
  obtain ⟨v, hv⟩ := Option.isSome_iff_exists.mp hk
  have hv2 : t (keyNode k).key = some v := by
    rw [keyNode_key]
    exact hv
  have hfin : fieldValue (optimize s t definitionParams).store
      (keyNode k).addr = some v :=
    optimize_sets_field s t hcc hm (keyNode k) (keyNode_mem k)
      (hfields (keyNode k) (keyNode_mem k)) v hv2
  rw [currentSnapshot_eval (optimize s t definitionParams) hcc2 hm2 k,
      hfin, hv]

theorem cleanFullState_cc : CacheConsistent cleanFullState := by
  intro c fd h _
  simp [cleanFullState, cacheGet] at h

theorem claim_C3_roundtrip_witness :
    (0 < 1 ∧
      (getCurrentSettings (optimize cleanFullState
          (fun k => match k with
            | .outputMode => some (.str ("Advanced"))
            | .videoBitrate => some (.num 2500)
            | _ => none) definitionParams)
        definitionParams).1 .videoBitrate = some (.num 2500)) ∧
    (optimize cleanFullState
      (fun k => match k with
        | .outputMode => some (.str ("Advanced"))
        | .videoBitrate => some (.num 2500)
        | _ => none) definitionParams).modified = [] := by
  have h := claim_C3_roundtrip cleanFullState
    (fun k => match k with
      | .outputMode => some (.str ("Advanced"))
      | .videoBitrate => some (.num 2500)
      | _ => none)
    cleanFullState_cc rfl
    (by intro d hd; rw [flatDP] at hd; fin_cases hd <;> decide)
  exact ⟨⟨Nat.zero_lt_one, h.1 .videoBitrate rfl⟩, h.2.1⟩

/-- C5: from a consistent, fully flushed state, getCurrentSettings yields an
entry for every enumeration key — including keys under branches that are not
currently active — and when the read returns every field of the store
(in particular every branching field) again holds the value it had before
the call. -/
theorem claim_C5_exhaustive_read (s : OptState)
    (hcc : CacheConsistent s) (hm : s.modified = []) :
    ((getValuesList s definitionParams).1).map Prod.fst =
      [.outputMode, .videoBitrate, .audioBitrate, .encoder, .encoderPreset,
       .tune, .keyframeInterval, .profile, .audioTrackIndex, .quality,
       .colorSpace, .fps] ∧
    (∀ a : Addr, fieldValue ((getValuesList s definitionParams).2).store a =
      fieldValue s.store a) := by
  obtain ⟨hp, hs, hmm⟩ := reader_list s definitionParams
    (fun a => fieldValue s.store a)
    (fun a => cleanState_settled s hcc hm a) nodupAddrsDP
  constructor
  · rw [hp]
    rfl
  · intro a
    refine settled_store _ a _ ?_ (hs a)
    intro hc
    have := hmm a.1 hc
    rw [hm] at this
    simp at this

theorem claim_C5_exhaustive_read_witness :
    (((getValuesList cleanFullState definitionParams).1).map Prod.fst =
      [.outputMode, .videoBitrate, .audioBitrate, .encoder, .encoderPreset,
       .tune, .keyframeInterval, .profile, .audioTrackIndex, .quality,
       .colorSpace, .fps]) ∧
    fieldValue ((getValuesList cleanFullState definitionParams).2).store
        (CategoryName.output, "Untitled", "Mode") =
      fieldValue cleanFullState.store
        (CategoryName.output, "Untitled", "Mode") := by
  have h := claim_C5_exhaustive_read cleanFullState cleanFullState_cc rfl
  exact ⟨h.1, h.2 (CategoryName.output, "Untitled", "Mode")⟩

/-- C4 as stated is false: writing back the snapshot just read pivots the
outputMode branching field (whose stored value differs from the Advanced
selector), marking its category dirty and invoking the accessor's write
capability during the call. -/
theorem claim_C4_counterexample :
    Ev.setData CategoryName.output ∈
      (setValues cleanFullState
        ((getCurrentSettings cleanFullState definitionParams).1)
        definitionParams).events := by
  decide

/-- C4 amended: writing back the current snapshot produces no net store
mutation — every field ends at the value it started with and no category is
left dirty — although branch pivoting may transiently dirty and flush
categories (so the write capability can be invoked during the call). -/
theorem claim_C4_amended (s : OptState)
    (hcc : CacheConsistent s) (hm : s.modified = [])
    (hfields : ∀ d ∈ iterateDefinitions definitionParams,
      (fieldValue s.store d.addr).isSome = true) :
    (∀ a : Addr, fieldValue (optimize s
        ((getCurrentSettings s definitionParams).1) definitionParams).store a
      = fieldValue s.store a) ∧
    (optimize s ((getCurrentSettings s definitionParams).1)
      definitionParams).modified = [] := by
  refine ⟨?_, writeBackAll_modified _⟩
  intro a
  by_cases ha : a ∈ writtenAddrs
    ((getCurrentSettings s definitionParams).1) definitionParams
  · obtain ⟨d, hd, had⟩ := List.mem_map.mp
      (writtenAddrs_subset _ definitionParams a ha)
    subst had
    have hpres := hfields d hd
    obtain ⟨v, hv⟩ := Option.isSome_iff_exists.mp hpres
    have hteval : (getCurrentSettings s definitionParams).1 d.key =
        fieldValue s.store d.addr := by
      rw [currentSnapshot_eval s hcc hm d.key]
      have hd2 := hd
      rw [flatDP] at hd2
      fin_cases hd2 <;> rfl
    have hv2 : (getCurrentSettings s definitionParams).1 d.key = some v := by
      rw [hteval, hv]
    have hfin := optimize_sets_field s _ hcc hm d hd hpres v hv2
    rw [hfin, hv]
  · have hfr := writer_frame s _ definitionParams a (fieldValue s.store a) ha
      (cleanState_settled s hcc hm a)
    exact settled_writeBackAll_store _ a _ hfr

theorem claim_C4_amended_witness :
    fieldValue (optimize cleanFullState
        ((getCurrentSettings cleanFullState definitionParams).1)
        definitionParams).store (CategoryName.output, "Untitled", "Mode") =
      fieldValue cleanFullState.store
        (CategoryName.output, "Untitled", "Mode") ∧
    (optimize cleanFullState
      ((getCurrentSettings cleanFullState definitionParams).1)
      definitionParams).modified = [] := by
  have h := claim_C4_amended cleanFullState cleanFullState_cc rfl
    (by intro d hd; rw [flatDP] at hd; fin_cases hd <;> decide)
  exact ⟨h.1 _, h.2⟩

/-- C1 as stated is false: with branch B selected by the target's own value
for the branching field, the entry naming a field under the non-selected
branch A is applied to the store, not ignored. -/
theorem claim_C1_counterexample :
    fieldValue (optimize c1state c1target [c1Item]).store
      (CategoryName.output, "SC", "FA") = some (.str ("x")) ∧
    fieldValue c1state.store (CategoryName.output, "SC", "FA") =
      some (.str ("old")) ∧
    fieldValue (optimize c1state c1target [c1Item]).store
      (CategoryName.output, "SC", "Root") = some (.str ("B")) := by
  refine ⟨?_, ?_, ?_⟩ <;> decide

/-- C1 amended: the writer mutates no field at an address outside its
written-address set — in particular no field of a branch whose subtree the
target does not touch — while entries under a touched branch are applied
even when the branching field's own target value selects another branch. -/
theorem claim_C1_branch_isolation (s : OptState) (values : OptimizeSettings)
    (defs : List DefinitionParam)
    (hcc : CacheConsistent s) (hm : s.modified = [])
    (a : Addr) (ha : a ∉ writtenAddrs values defs) :
    Settled (setValues s values defs) a (fieldValue s.store a) ∧
    fieldValue (optimize s values defs).store a = fieldValue s.store a := by
  have h := writer_frame s values defs a (fieldValue s.store a) ha
    (cleanState_settled s hcc hm a)
  exact ⟨h, settled_writeBackAll_store _ a _ h⟩

theorem claim_C1_branch_isolation_witness :
    (((CategoryName.video, "SC", "FB") : Addr) ∉
      writtenAddrs c1target [c1Item]) ∧
    fieldValue (optimize c1state c1target [c1Item]).store
        (CategoryName.video, "SC", "FB") =
      fieldValue c1state.store (CategoryName.video, "SC", "FB") := by
  have h := claim_C1_branch_isolation c1state c1target [c1Item]
    (by intro c fd hq _; simp [c1state, cacheGet] at hq) rfl
    (CategoryName.video, "SC", "FB") (by decide)
  exact ⟨by decide, h.2⟩

theorem mem_iterDeps_of_mem (deps : List (SVal × List DefinitionParam))
    (dv : SVal) (ps : List DefinitionParam) (d : DefinitionParam)
    (hb : (dv, ps) ∈ deps) (hd : d ∈ iterateDefinitions ps) :
    d ∈ iterDeps deps := by
  induction deps with
  | nil => simp at hb
  | cons p rest ih =>
      obtain ⟨dv', ps'⟩ := p
      rw [show iterDeps ((dv', ps') :: rest) =
        iterateDefinitions ps' ++ iterDeps rest from rfl]
      rcases List.mem_cons.mp hb with heq | hb2
      · injection heq with h1 h2
        subst h2
        exact List.mem_append.mpr (Or.inl hd)
      · exact List.mem_append.mpr (Or.inr (ih hb2))

/-- C7: writing through a branching node descends into exactly the branches
the target touches (fields at addresses outside the written set — in
particular untouched branches — are unmutated, named present fields inside
touched branches receive their target values), and the node's own final
stored value is the target's value for its key when named, else the current
value read before any pivot, to which the node is set back. -/
theorem claim_C7_branching_write (s : OptState) (values : OptimizeSettings)
    (k : OptimizationKey) (c : CategoryName) (sub st : String)
    (l : Option String) (b : Bool)
    (deps : List (SVal × List DefinitionParam))
    (hcc : CacheConsistent s) (hm : s.modified = [])
    (hnodup : ((iterItem (.mk k c sub st l b (some deps))).map
      DefinitionParam.addr).Nodup) :
    (∀ v, values k = some v →
      (fieldValue s.store (c, sub, st)).isSome = true →
      fieldValue (optimize s values
        [DefinitionParam.mk k c sub st l b (some deps)]).store (c, sub, st)
        = some v) ∧
    (values k = none →
      fieldValue (optimize s values
        [DefinitionParam.mk k c sub st l b (some deps)]).store (c, sub, st)
        = fieldValue s.store (c, sub, st)) ∧
    (∀ a : Addr, a ∉ writtenAddrs values
        [DefinitionParam.mk k c sub st l b (some deps)] →
      fieldValue (optimize s values
        [DefinitionParam.mk k c sub st l b (some deps)]).store a =
        fieldValue s.store a) ∧
    (∀ dv ps, (dv, ps) ∈ deps → ∀ d ∈ iterateDefinitions ps, ∀ v,
      values d.key = some v →
      (fieldValue s.store d.addr).isSome = true →
      fieldValue (optimize s values
        [DefinitionParam.mk k c sub st l b (some deps)]).store d.addr
        = some v) := by
  have hsingle : iterateDefinitions
      [DefinitionParam.mk k c sub st l b (some deps)] =
    iterItem (.mk k c sub st l b (some deps)) ++ [] := rfl
  have hnodup1 : ((iterateDefinitions
      [DefinitionParam.mk k c sub st l b (some deps)]).map
        DefinitionParam.addr).Nodup := by
    rw [hsingle, List.append_nil]
    exact hnodup
  have hhead : (DefinitionParam.mk k c sub st l b (some deps)).addr ∉
      (iterDeps deps).map DefinitionParam.addr := by
    have h2 := hnodup
    rw [show iterItem (.mk k c sub st l b (some deps)) =
      .mk k c sub st l b (some deps) :: iterDeps deps from rfl,
      List.map_cons, List.nodup_cons] at h2
    exact h2.1
  refine ⟨?_, ?_, ?_, ?_⟩
  · -- named case
    intro v hv hpres
    obtain ⟨w, hw⟩ := Option.isSome_iff_exists.mp hpres
    have hmem : (DefinitionParam.mk k c sub st l b (some deps)) ∈
        iterateDefinitions [DefinitionParam.mk k c sub st l b (some deps)] := by
      rw [hsingle]
      exact List.mem_append.mpr (Or.inl (List.Mem.head _))
    have hset := writer_sets s values
      [DefinitionParam.mk k c sub st l b (some deps)]
      (.mk k c sub st l b (some deps)) v hnodup1 hmem hv
      ⟨w, by rw [← hw]; exact cleanState_settled s hcc hm _⟩
    exact settled_writeBackAll_store _ _ _ hset
  · -- fallback case: the node is set back to the value read before pivots
    intro hnone
    have hred : setValues s values
        [DefinitionParam.mk k c sub st l b (some deps)] =
      setValuesItem s values (.mk k c sub st l b (some deps)) := rfl
    have hv0 : (findValue s (.mk k c sub st l b (some deps))).1 =
        fieldValue s.store (c, sub, st) :=
      settled_findValue s _ _ (cleanState_settled s hcc hm _)
    have hs1 : ∀ a, Settled
        (findValue s (.mk k c sub st l b (some deps))).2 a
        (fieldValue s.store a) :=
      fun a => settled_getCategory s _ a _ (cleanState_settled s hcc hm a)
    have hpres := writerDeps_presence values
      (.mk k c sub st l b (some deps)) deps
      (findValue s (.mk k c sub st l b (some deps))).2 hhead
    have hitem : setValuesItem s values (.mk k c sub st l b (some deps)) =
        setValueRestore
          (setValuesDeps (findValue s (.mk k c sub st l b (some deps))).2
            values (.mk k c sub st l b (some deps)) deps)
          (.mk k c sub st l b (some deps))
          (findValue s (.mk k c sub st l b (some deps))).1 := by
      rw [setValuesItem, hnone]
    rw [show optimize s values
        [DefinitionParam.mk k c sub st l b (some deps)] =
      writeBackAllCategories (setValues s values
        [DefinitionParam.mk k c sub st l b (some deps)]) from rfl,
      hred, hitem]
    rcases hv : (findValue s (.mk k c sub st l b (some deps))).1 with _ | w
    · -- field absent: pivots no-op; absence is preserved
      have habs : fieldValue s.store (c, sub, st) = none := by
        rw [← hv0, hv]
      have h2 := hpres.1 (by
        rw [← habs]
        exact hs1 _)
      have h3 : Settled (setValueRestore
          (setValuesDeps (findValue s (.mk k c sub st l b (some deps))).2
            values (.mk k c sub st l b (some deps)) deps)
          (.mk k c sub st l b (some deps)) none)
          (DefinitionParam.mk k c sub st l b (some deps)).addr none :=
        settled_getCategory _ _ _ none h2
      rw [habs]
      exact settled_writeBackAll_store _ _ none h3
    · -- field present: the restore writes the saved value back
      have hsome : fieldValue s.store (c, sub, st) = some w := by
        rw [← hv0, hv]
      obtain ⟨w', hw'⟩ := hpres.2 w (by
        rw [show (DefinitionParam.mk k c sub st l b (some deps)).addr =
          ((c, sub, st) : Addr) from rfl, ← hsome]
        exact hs1 _)
      have h3 := settled_setValue_self _
        (.mk k c sub st l b (some deps)) w w' hw'
      rw [hsome]
      exact settled_writeBackAll_store _ _ (some w) h3
  · -- frame: addresses outside the written set are unmutated
    intro a ha
    have hfr := writer_frame s values
      [DefinitionParam.mk k c sub st l b (some deps)] a
      (fieldValue s.store a) ha (cleanState_settled s hcc hm a)
    exact settled_writeBackAll_store _ a _ hfr
  · -- touched branches: named present descendants get their target values
    intro dv ps hb d hd v hv hpres2
    obtain ⟨w, hw⟩ := Option.isSome_iff_exists.mp hpres2
    have hmem : d ∈ iterateDefinitions
        [DefinitionParam.mk k c sub st l b (some deps)] := by
      rw [hsingle]
      refine List.mem_append.mpr (Or.inl ?_)
      rw [show iterItem (.mk k c sub st l b (some deps)) =
        .mk k c sub st l b (some deps) :: iterDeps deps from rfl]
      exact List.mem_cons_of_mem _ (mem_iterDeps_of_mem deps dv ps d hb hd)
    have hset := writer_sets s values
      [DefinitionParam.mk k c sub st l b (some deps)] d v hnodup1 hmem hv
      ⟨w, by rw [← hw]; exact cleanState_settled s hcc hm _⟩
    exact settled_writeBackAll_store _ _ _ hset

theorem claim_C7_branching_write_witness :
    fieldValue (optimize cleanFullState c7target [dOutputMode]).store
      (CategoryName.output, "Untitled", "Mode") = some (.str ("Advanced")) ∧
    fieldValue (optimize cleanFullState c7target [dOutputMode]).store
      (CategoryName.output, "Streaming", "bitrate") = some (.num 2500) := by
  have h := claim_C7_branching_write cleanFullState c7target
    .outputMode .output ("Untitled") ("Mode") none true omBranch
    cleanFullState_cc rfl (by decide)
  refine ⟨h.1 (.str ("Advanced")) rfl (by decide), ?_⟩
  refine h.2.2.2 (.str ("Advanced"))
    [dVideoBitrate, dAudioBitrate, dEncoder, dKeyframeInterval,
     dProfile, dAudioTrackIndex] (List.Mem.head _) dVideoBitrate
    (List.Mem.head _) (.num 2500) rfl (by decide)
